import Mathlib

/-!
Shallow embedding of the Competition-and-Hazard-Detection-System backend core
(`app/models/circuit.py`, `app/services/parser.py`, `app/services/detector.py`)
and proofs about the frozen specification claims.

Conventions of the embedding:
* Python `dict`s (insertion-ordered, unique keys) are modelled as association
  lists `List (String × α)`; `dictInsert` mirrors `d[k] = v` (in-place value
  update when the key exists, append otherwise) and `List.lookup` mirrors
  `d[k]` / `k in d`.  The unique-key invariant of a real `dict` is taken as a
  `Nodup` hypothesis where a proof needs it.
* Python numbers: logic values are `Int` (the code uses `0`/`1` and `1 - x`);
  delays are `ℚ` (the code only ever adds and compares delays, so exact
  rationals model the arithmetic of the reference values).
* Python exceptions are modelled with `Except PyError`; a function that cannot
  raise is total.
-/

/-- Kinds of Python exception relevant to the embedded code:
`CircuitParseError` (app.utils.exceptions), `ValueError`, `IndexError`
(e.g. `list.pop` from an empty list), `KeyError` (missing dict key). -/
inductive PyError where
  | parseError (msg : String)
  | valueError (msg : String)
  | indexError (msg : String)
  | keyError (msg : String)
  deriving Repr, DecidableEq

instance {ε α : Type} [DecidableEq ε] [DecidableEq α] : DecidableEq (Except ε α) := fun a b =>
  match a, b with
  | .ok x, .ok y => if h : x = y then isTrue (by rw [h]) else isFalse (by simp [h])
  | .error x, .error y => if h : x = y then isTrue (by rw [h]) else isFalse (by simp [h])
  | .ok _, .error _ => isFalse (by simp)
  | .error _, .ok _ => isFalse (by simp)

/-- Python `abs` on an exact rational. -/
def pyAbs (q : ℚ) : ℚ := if q < 0 then -q else q

/-- Python `max` folding: keep the current value unless the next is greater. -/
def pyMax (a b : ℚ) : ℚ := if a < b then b else a

/-- `d[k] = v` on a Python dict: update in place if `k` is present, else append. -/
def dictInsert {α : Type} (k : String) (v : α) (d : List (String × α)) : List (String × α) :=
  if d.any (fun p => p.1 = k) then d.map (fun p => if p.1 = k then (k, v) else p)
  else d ++ [(k, v)]

/-- `d.update(patch)` on Python dicts: insert every pair of `patch` in order. -/
def dictUpdate {α : Type} (d patch : List (String × α)) : List (String × α) :=
  patch.foldl (fun acc p => dictInsert p.1 p.2 acc) d

/-- Remove duplicates keeping the first occurrence (Python `set`/`dict` key
collection order for deterministic modelling). -/
def dedupFirstAux (seen : List String) : List String → List String
  | [] => []
  | x :: xs => if x ∈ seen then dedupFirstAux seen xs else x :: dedupFirstAux (x :: seen) xs

def dedupFirst (l : List String) : List String := dedupFirstAux [] l

/-- Insertion into an ascending list (helper for `sortStrings`). -/
def insertAsc (x : String) : List String → List String
  | [] => [x]
  | y :: ys => if x < y then x :: y :: ys else y :: insertAsc x ys

/-- Python `sorted` on a list of (distinct) strings: ascending by code points. -/
def sortStrings (l : List String) : List String := l.foldr insertAsc []

/-- `LogicGate.__init__` (circuit.py 4-29). -/
structure LogicGate where
  id : String
  type : String
  delay : ℚ
  inputs : List String
  output : String
  deriving Repr, DecidableEq

/-- The per-input record stored by `Circuit.add_input` (circuit.py 89-101). -/
structure InputInfo where
  name : String
  initial_value : Int
  deriving Repr, DecidableEq

/-- The per-output record stored by `Circuit.add_output` (circuit.py 103-115). -/
structure OutputInfo where
  name : String
  source : String
  deriving Repr, DecidableEq

/-- A connection record (circuit.py 117-130); `frm`/`toId` model the dict keys `"from"`/`"to"`. -/
structure Connection where
  frm : String
  toId : String
  delay : ℚ
  deriving Repr, DecidableEq

/-- `Circuit` (circuit.py 64-78): gates / inputs / outputs are dicts, the
connections are an ordered list. -/
structure Circuit where
  name : String
  gates : List (String × LogicGate)
  inputs : List (String × InputInfo)
  outputs : List (String × OutputInfo)
  connections : List Connection
  deriving Repr, DecidableEq

def gateKeys (c : Circuit) : List String := c.gates.map Prod.fst

def isGateId (c : Circuit) (x : String) : Bool := (gateKeys c).contains x

def isInputId (c : Circuit) (x : String) : Bool := c.inputs.any (fun p => p.1 = x)

/-- `LogicGate.compute_output` (circuit.py 31-62). -/
def LogicGate.computeOutput (g : LogicGate) (vals : List (String × Int)) : Except PyError Int :=
  match g.inputs.find? (fun i => (vals.lookup i).isNone) with
  | some i => .error (.valueError ("输入 " ++ i ++ " 没有值"))
  | none =>
    if g.type = "AND" then
      .ok (if g.inputs.all (fun i => (vals.lookup i).getD 0 == 1) then 1 else 0)
    else if g.type = "OR" then
      .ok (if g.inputs.any (fun i => (vals.lookup i).getD 0 == 1) then 1 else 0)
    else if g.type = "NOT" then
      match g.inputs with
      | [i] => .ok (1 - (vals.lookup i).getD 0)
      | _ => .error (.valueError ("NOT门应该只有一个输入，但 " ++ g.id ++ " 有多个输入"))
    else .error (.valueError ("不支持的门类型: " ++ g.type))

/-- The gate-to-gate edges induced by `connections` (both endpoints gate ids),
as used by `_topological_sort` (circuit.py 199-206, detector.py 418-425). -/
def ggEdges (c : Circuit) : List (String × String) :=
  (c.connections.filter (fun cn => isGateId c cn.frm && isGateId c cn.toId)).map
    (fun cn => (cn.frm, cn.toId))

/-- The adjacency list `graph[u]` built by the connection loop: successors of
`u` in connection order. -/
def kahnAdj (c : Circuit) (u : String) : List String :=
  ((ggEdges c).filter (fun e => e.1 = u)).map Prod.snd

/-- The initial `in_degree[v]`: the number of gate-to-gate connections into `v`. -/
def kahnIndeg (c : Circuit) (v : String) : Int :=
  (((ggEdges c).filter (fun e => e.2 = v)).length : Int)

/-- The neighbour update of the Kahn loop body (circuit.py 216-219):
`in_degree[neighbor] -= 1`, enqueue the neighbour if it reaches zero. -/
def kahnStep (p : (String → Int) × List String) (nb : String) : (String → Int) × List String :=
  let d := p.1 nb - 1
  (fun x => if x = nb then d else p.1 x, if d = 0 then p.2 ++ [nb] else p.2)

/-- The Kahn worklist loop (`circuit.py 212-219`): dequeue `q`, decrement the
in-degree of each successor, enqueueing those that reach zero. -/
def kahnLoop (c : Circuit) : Nat → (String → Int) → List String → List String → List String
  | 0, _, _, sorted => sorted
  | fuel + 1, deg, queue, sorted =>
    match queue with
    | [] => sorted
    | q :: rest =>
      let s := (kahnAdj c q).foldl kahnStep (deg, rest)
      kahnLoop c fuel s.1 s.2 (sorted ++ [q])

/-- `Circuit._topological_sort` (circuit.py 188-225); `detector.py 407-444`
duplicates this method verbatim, so both are modelled by this one definition.
The Python `while queue` loop terminates because every gate is enqueued at most
once (its in-degree only ever decreases, so it crosses zero at most once), so
`gates.length + 1` units of fuel can never be exhausted; the fuel-zero branch
is dead code under the invariants proved below. -/
def topologicalSort (c : Circuit) : Except PyError (List String) :=
  let keys := gateKeys c
  let deg := kahnIndeg c
  let queue := keys.filter (fun g => deg g == 0)
  let order := kahnLoop c (keys.length + 1) deg queue []
  if order.length = c.gates.length then .ok order
  else .error (.valueError "电路中存在环路，无法进行拓扑排序")

def initialInputValues (c : Circuit) : List (String × Int) :=
  c.inputs.map (fun p => (p.1, p.2.initial_value))

/-- The gate-evaluation loop of `compute_circuit` (circuit.py 158-172):
process the topologically sorted gates in order, reading each gate's inputs
from the results accumulated so far. -/
def gateEvalFold (c : Circuit) :
    List String → List (String × Int) → Except PyError (List (String × Int))
  | [], res => .ok res
  | gid :: rest, res =>
    match c.gates.lookup gid with
    | none => .error (.keyError gid)
    | some gate =>
      match gate.inputs.find? (fun i => (res.lookup i).isNone) with
      | some i => .error (.valueError ("无法计算门 " ++ gid ++ " 的输入 " ++ i ++ " 的值"))
      | none =>
        match gate.computeOutput (gate.inputs.map (fun i => (i, (res.lookup i).getD 0))) with
        | .error e => .error e
        | .ok out => gateEvalFold c rest (dictInsert gid out res)

/-- The output-resolution loop of `compute_circuit` (circuit.py 174-181). -/
def outputResolve (c : Circuit) (res : List (String × Int)) :
    Except PyError (List (String × Int)) :=
  c.outputs.foldlM (fun acc p =>
    match res.lookup p.2.source with
    | some v => pure (dictInsert p.1 v acc)
    | none => .error (.valueError ("无法计算输出 " ++ p.1 ++ " 的值，未找到源 " ++ p.2.source)))
    []

/-- `Circuit.compute_circuit` (circuit.py 132-186).  `none` models the call
with no argument (`input_values is None`: seed from stored initial values);
`some m` models an explicit mapping, validated against the known input ids. -/
def computeCircuit (c : Circuit) (inputValues : Option (List (String × Int))) :
    Except PyError (List (String × Int)) := do
  let seed ← match inputValues with
    | none => pure (initialInputValues c)
    | some m =>
      match m.find? (fun p => !(isInputId c p.1)) with
      | some p => Except.error (.valueError ("未知的输入ID: " ++ p.1))
      | none => pure m
  let order ← topologicalSort c
  let res ← gateEvalFold c order seed
  let outs ← outputResolve c res
  pure (dictUpdate res outs)

def addGate (c : Circuit) (g : LogicGate) : Circuit :=
  { c with gates := dictInsert g.id g c.gates }

def addInput (c : Circuit) (iid nm : String) (iv : Int) : Circuit :=
  { c with inputs := dictInsert iid ⟨nm, iv⟩ c.inputs }

def addOutput (c : Circuit) (oid nm src : String) : Circuit :=
  { c with outputs := dictInsert oid ⟨nm, src⟩ c.outputs }

def addConnection (c : Circuit) (frm toId : String) (d : ℚ) : Circuit :=
  { c with connections := c.connections ++ [⟨frm, toId, d⟩] }

/-- `CircuitParser._tokenize` (parser.py 65-99): uppercase, keyword → operator
substitution, then a character scan that splits on operators and whitespace. -/
def tokenize (expression : String) : List String :=
  let expr := (((expression.toUpper).replace "AND" "&").replace "OR" "|").replace "NOT" "!"
  let step := expr.toList.foldl
    (fun (p : List String × String) ch =>
      if ch ∈ ['&', '|', '!', '(', ')'] then
        ((if p.2 ≠ "" then p.1 ++ [p.2.trim] else p.1) ++ [ch.toString], "")
      else if ch.isWhitespace then
        (if p.2 ≠ "" then p.1 ++ [p.2.trim] else p.1, "")
      else (p.1, p.2.push ch))
    ([], "")
  if step.2 ≠ "" then step.1 ++ [step.2.trim] else step.1

/-- Python `str.isalpha` (ASCII fragment, which is all the parser's uppercased
operand tokens can contain). -/
def pyIsAlpha (t : String) : Bool := t ≠ "" && t.toList.all Char.isAlpha

/-- `CircuitParser._extract_inputs` (parser.py 101-115): the *set* of alphabetic
tokens, returned `sorted`. -/
def extractInputs (tokens : List String) : List String :=
  sortStrings (dedupFirst (tokens.filter
    (fun t => pyIsAlpha t && !(["AND", "OR", "NOT"].contains t))))

/-- `CircuitParser._precedence` (parser.py 159-167). -/
def precedence (op : String) : Nat :=
  if op = "!" then 3 else if op = "&" then 2 else if op = "|" then 1 else 0

/-- The shunting-yard state: gate-id counter, circuit under construction and
the operand stack (head = top; Python appends/pops at the list's end). -/
structure ParserState where
  counter : Nat
  circuit : Circuit
  stack : List String
  deriving Repr

/-- `CircuitParser._create_gate` (parser.py 169-198).  A pop from an empty
operand stack is Python's `IndexError`. -/
def createGate (st : ParserState) (op : String) : Except PyError ParserState :=
  let gid := "g" ++ toString (st.counter + 1)
  if op = "!" then
    match st.stack with
    | inputId :: rest =>
      let gate : LogicGate := ⟨gid, "NOT", 1.0, [inputId], gid⟩
      let c := addConnection (addGate st.circuit gate) inputId gid 0.1
      .ok ⟨st.counter + 1, c, gid :: rest⟩
    | [] => .error (.indexError "pop from empty list")
  else
    match st.stack with
    | input2 :: input1 :: rest =>
      let gtype := if op = "&" then "AND" else "OR"
      let gate : LogicGate := ⟨gid, gtype, 2.0, [input1, input2], gid⟩
      let c := addConnection (addConnection (addGate st.circuit gate) input1 gid 0.1)
        input2 gid 0.1
      .ok ⟨st.counter + 1, c, gid :: rest⟩
    | _ => .error (.indexError "pop from empty list")

/-- The `while` loop run when a binary operator arrives (parser.py 137-139). -/
def popHigherOps (st : ParserState) (tok : String) :
    List String → Except PyError (ParserState × List String)
  | [] => .ok (st, [])
  | op :: rest =>
    if op ≠ "(" && precedence tok ≤ precedence op then
      match createGate st op with
      | .ok st' => popHigherOps st' tok rest
      | .error e => .error e
    else .ok (st, op :: rest)

/-- The `while` loop run when `)` arrives (parser.py 146-147). -/
def popUntilParen (st : ParserState) :
    List String → Except PyError (ParserState × List String)
  | [] => .ok (st, [])
  | op :: rest =>
    if op ≠ "(" then
      match createGate st op with
      | .ok st' => popUntilParen st' rest
      | .error e => .error e
    else .ok (st, op :: rest)

/-- The final drain of the operator stack (parser.py 154-155). -/
def popAllOps (st : ParserState) : List String → Except PyError ParserState
  | [] => .ok st
  | op :: rest =>
    match createGate st op with
    | .ok st' => popAllOps st' rest
    | .error e => .error e

/-- The token loop of `CircuitParser._build_gates` (parser.py 135-151). -/
def buildGatesLoop (st : ParserState) (ops : List String) :
    List String → Except PyError (ParserState × List String)
  | [] => .ok (st, ops)
  | tok :: ts =>
    if tok = "&" || tok = "|" then
      match popHigherOps st tok ops with
      | .ok (st', ops') => buildGatesLoop st' (tok :: ops') ts
      | .error e => .error e
    else if tok = "!" then buildGatesLoop st (tok :: ops) ts
    else if tok = "(" then buildGatesLoop st (tok :: ops) ts
    else if tok = ")" then
      match popUntilParen st ops with
      | .ok (st', ops') =>
        buildGatesLoop st' (match ops' with | "(" :: rest => rest | other => other) ts
      | .error e => .error e
    else buildGatesLoop { st with stack := tok.toLower :: st.stack } ops ts

/-- `CircuitParser._build_gates` (parser.py 117-157): returns the id left on
top of the operand stack together with the extended circuit; `stack[-1]` on an
empty stack is an `IndexError`. -/
def buildGates (c : Circuit) (tokens : List String) : Except PyError (String × Circuit) :=
  match buildGatesLoop ⟨0, c, []⟩ [] tokens with
  | .error e => .error e
  | .ok (st, ops) =>
    match popAllOps st ops with
    | .error e => .error e
    | .ok stF =>
      match stF.stack with
      | top :: _ => .ok (top, stF.circuit)
      | [] => .error (.indexError "list index out of range")

/-- `CircuitParser.parse` (parser.py 18-63) on a fresh parser instance
(`gate_id_counter` starts at 0). -/
def parse (expression : String) : Except PyError Circuit :=
  if expression = "" then .error (.parseError "表达式不能为空")
  else
    let tokens := tokenize expression
    let c0 : Circuit := ⟨"parsed_circuit", [], [], [], []⟩
    let c1 := (extractInputs tokens).foldl (fun c v => addInput c v.toLower v 0) c0
    match buildGates c1 tokens with
    | .ok (outputId, c2) => .ok (addOutput c2 "out1" "Y" outputId)
    | .error e => .error e

/-- The recursive `dfs` inside `_find_all_paths_to_gate` (detector.py 149-168).
The `max_depth = 100` guard (return as soon as `depth > 100`) is modelled by
fuel `101 - depth`; the per-branch `visited` set is passed down (the Python
set is restored on backtrack, so at each child call it holds exactly the
current DFS stack). -/
def dfsPaths (c : Circuit) : Nat → List String → String → List String → List (List String)
  | 0, _, _, _ => []
  | fuel + 1, visited, current, path =>
    if isInputId c current then [path]
    else if visited.contains current then []
    else
      (c.connections.filter (fun cn => cn.toId = current)).foldl
        (fun acc cn => acc ++ dfsPaths c fuel (current :: visited) cn.frm (cn.frm :: path))
        []

/-- `_find_all_paths_to_gate` (detector.py 140-180).  The per-detector memo
cache only stores this function's own results, so it is observationally
transparent and not modelled; the surrounding `try/except` has no failing
path. -/
def findAllPathsToGate (c : Circuit) (gid : String) : List (List String) :=
  dfsPaths c 101 [] gid [gid]

/-- The connection-delay part of `_calculate_path_delay` (detector.py 192-203):
for each consecutive pair the first matching connection's delay, else 0. -/
def connDelaySum (c : Circuit) : List String → ℚ
  | a :: b :: rest =>
    (match c.connections.find? (fun cn => cn.frm = a && cn.toId = b) with
     | some cn => cn.delay
     | none => 0) + connDelaySum c (b :: rest)
  | _ => 0

/-- `_calculate_path_delay` (detector.py 182-210): gate delays of the path's
nodes plus the consecutive connection delays; its `except` arm cannot fire. -/
def calculatePathDelay (c : Circuit) (path : List String) : ℚ :=
  (path.map (fun gid => match c.gates.lookup gid with | some g => g.delay | none => 0)).sum
    + connDelaySum c path

/-- `_calculate_input_delays` (detector.py 122-138): per input port, the
maximum path delay over all paths to that port (0 when there is none). -/
def calculateInputDelays (c : Circuit) (gate : LogicGate) : List (String × ℚ) :=
  gate.inputs.foldl (fun acc iid =>
    let paths := findAllPathsToGate c iid
    let d : ℚ := match paths with
      | [] => 0
      | p :: ps => (ps.map (calculatePathDelay c)).foldl pyMax (calculatePathDelay c p)
    dictInsert iid d acc) []

/-- One `race_conditions` record (detector.py 79-86). -/
structure RaceCondition where
  gate_id : String
  gate_type : String
  input1 : String
  input2 : String
  delay1 : ℚ
  delay2 : ℚ
  deriving Repr, DecidableEq

/-- The ordered-pair sweep of `_detect_race_conditions` (detector.py 76-86):
for each `i < j`, flag when `|delay_i - delay_j| < 0.5`. -/
def racePairs (gid gtype : String) : List (String × ℚ) → List RaceCondition
  | [] => []
  | (i1, d1) :: rest =>
    (rest.filterMap (fun p =>
      if pyAbs (d1 - p.2) < (0.5 : ℚ) then some ⟨gid, gtype, i1, p.1, d1, p.2⟩ else none))
      ++ racePairs gid gtype rest

/-- `_detect_race_conditions` (detector.py 60-88): gates with more than one
input port contribute their near-delay pairs. -/
def detectRaceConditions (c : Circuit) : List RaceCondition :=
  c.gates.foldl (fun acc p =>
    acc ++ (if p.2.inputs.length > 1 then racePairs p.1 p.2.type (calculateInputDelays c p.2)
            else [])) []

/-- `SpecialVariable` / `NegatedVariable` (detector.py 964-988) together with
the plain numbers they are intermixed with in one value slot. -/
inductive SymVal where
  | const (v : Int)
  | special (varId varName : String)
  | negated (varId varName : String)
  deriving Repr, DecidableEq

def isConstVal : SymVal → Bool
  | .const _ => true
  | _ => false

/-- The port-to-source assignment of `_collect_gate_inputs` (detector.py
468-476): each connection whose `"to"` is the gate's dict key is assigned, in
connection-list order, to the first input port not yet assigned. -/
def assignPorts (c : Circuit) (gid : String) (gate : LogicGate) : List (String × String) :=
  c.connections.foldl (fun acc cn =>
    if cn.toId = gid then
      match gate.inputs.find? (fun port => !(acc.any (fun q => q.1 = port))) with
      | some port => acc ++ [(port, cn.frm)]
      | none => acc
    else acc) []

/-- `_collect_gate_inputs` (detector.py 446-502): read each assigned source
from the circuit state, defaulting to `0` when the source has no value yet.
The `gate_inputs` dict gains one entry per assigned port, in assignment
order.  (The source re-fetches the gate from `gates[gate_id]`; the caller
passes the looked-up gate together with the key.) -/
def collectGateInputs (c : Circuit) (gid : String) (gate : LogicGate)
    (state : List (String × SymVal)) : List (String × SymVal) :=
  (assignPorts c gid gate).map (fun ps =>
    (ps.1, match state.lookup ps.2 with
           | some v => v
           | none => SymVal.const 0))

/-- `d.setdefault(vid, []).append(port)` pattern used for the port dicts of
`_check_gate_for_hazard` (detector.py 529-541). -/
def appendPort (d : List (String × List String)) (vid port : String) :
    List (String × List String) :=
  if d.any (fun q => q.1 = vid) then
    d.map (fun q => if q.1 = vid then (q.1, q.2 ++ [port]) else q)
  else d ++ [(vid, [port])]

/-- The `special_vars` / `negated_vars` port dicts of `_check_gate_for_hazard`
(detector.py 522-541), built by iterating the collected gate inputs. -/
def collectPolarPorts (gi : List (String × SymVal)) :
    List (String × List String) × List (String × List String) :=
  gi.foldl (fun acc p =>
    match p.2 with
    | .special vid _ => (appendPort acc.1 vid p.1, acc.2)
    | .negated vid _ => (acc.1, appendPort acc.2 vid p.1)
    | .const _ => acc) ([], [])

/-- The dict returned by `_check_gate_for_hazard` (detector.py 565-571). -/
structure HazardCheck where
  htype : String
  description : String
  variable_id : String
  special_var_ports : List String
  negated_var_ports : List String
  deriving Repr, DecidableEq

/-- `_check_gate_for_hazard` (detector.py 504-573): a gate with at least two
input ports that receives a variable and its negation simultaneously. -/
def checkGateForHazard (gateId : String) (gate : LogicGate)
    (gi : List (String × SymVal)) : Option HazardCheck :=
  if gate.inputs.length < 2 then none
  else
    let pol := collectPolarPorts gi
    match pol.1.find? (fun sv => pol.2.any (fun nv => nv.1 = sv.1)) with
    | none => none
    | some sv =>
      let ports2 := (pol.2.lookup sv.1).getD []
      if gate.type = "AND" then
        some ⟨"静态冒险-0",
          "门 " ++ gateId ++ " (AND) 同时接收到变量 " ++ sv.1 ++ " 及其反相，可能产生静态冒险-0",
          sv.1, sv.2, ports2⟩
      else if gate.type = "OR" then
        some ⟨"静态冒险-1",
          "门 " ++ gateId ++ " (OR) 同时接收到变量 " ++ sv.1 ++ " 及其反相，可能产生静态冒险-1",
          sv.1, sv.2, ports2⟩
      else
        some ⟨"动态冒险",
          "门 " ++ gateId ++ " (" ++ gate.type ++ ") 同时接收到变量 " ++ sv.1 ++ " 及其反相，可能产生动态冒险",
          sv.1, sv.2, ports2⟩

def giGet (gi : List (String × SymVal)) (port : String) : SymVal :=
  (gi.lookup port).getD (SymVal.const 0)

/-- The `special_vars` / `negated_vars` value dicts of
`_compute_special_gate_output` (detector.py 618-629, 681-692), keyed by
variable id with overwriting assignment, iterating the gate's input ports. -/
def collectPolarVals (gate : LogicGate) (gi : List (String × SymVal)) :
    List (String × SymVal) × List (String × SymVal) :=
  gate.inputs.foldl (fun acc port =>
    match giGet gi port with
    | .special vid vn => (dictInsert vid (SymVal.special vid vn) acc.1, acc.2)
    | .negated vid vn => (acc.1, dictInsert vid (SymVal.negated vid vn) acc.2)
    | .const _ => acc) ([], [])

/-- `_compute_special_gate_output` (detector.py 575-737): ternary gate rules
over constants and symbolic literals. -/
def computeSpecialGateOutput (gate : LogicGate) (gi : List (String × SymVal)) : SymVal :=
  if gate.type = "NOT" then
    match gate.inputs with
    | [port] =>
      (match giGet gi port with
       | .special vid vn => .negated vid vn
       | .negated vid vn => .special vid vn
       | .const v => .const (1 - v))
    | _ => .const 0
  else if gate.type = "AND" then
    if gate.inputs.any (fun port => giGet gi port == SymVal.const 0) then .const 0
    else
      let pol := collectPolarVals gate gi
      if pol.1.any (fun sv => pol.2.any (fun nv => nv.1 = sv.1)) then .const 0
      else
        let allReg1 := (gate.inputs.filter (fun port =>
            (gi.lookup port).isSome && isConstVal (giGet gi port))).all
            (fun port => giGet gi port == SymVal.const 1)
        if allReg1 then
          if pol.1.length = 1 && pol.2.isEmpty then
            match pol.1 with | (_, v) :: _ => v | [] => .const 0
          else if pol.2.length = 1 && pol.1.isEmpty then
            match pol.2 with | (_, v) :: _ => v | [] => .const 0
          else if pol.1.isEmpty && pol.2.isEmpty then .const 1
          else .const 0
        else .const 0
  else if gate.type = "OR" then
    if gate.inputs.any (fun port => giGet gi port == SymVal.const 1) then .const 1
    else
      let pol := collectPolarVals gate gi
      if pol.1.any (fun sv => pol.2.any (fun nv => nv.1 = sv.1)) then .const 1
      else
        let allReg0 := (gate.inputs.filter (fun port =>
            (gi.lookup port).isSome && isConstVal (giGet gi port))).all
            (fun port => giGet gi port == SymVal.const 0)
        if allReg0 then
          if pol.1.length = 1 && pol.2.isEmpty then
            match pol.1 with | (_, v) :: _ => v | [] => .const 1
          else if pol.2.length = 1 && pol.1.isEmpty then
            match pol.2 with | (_, v) :: _ => v | [] => .const 1
          else if pol.1.isEmpty && pol.2.isEmpty then .const 0
          else .const 1
        else .const 1
  else .const 0

/-- `_generate_all_input_combinations` (detector.py 739-764): all `2^n` 0/1
assignments of the given input ids, bit `j` of the counter driving id `j`. -/
def generateAllInputCombinations (ids : List String) : List (List (String × Int)) :=
  if ids.isEmpty then [[]]
  else
    (List.range (2 ^ ids.length)).map (fun i =>
      ids.enum.map (fun p => (p.2, (Int.ofNat ((i >>> p.1) &&& 1)))))

/-- `_find_variable_paths` (detector.py 859-888): for each primary output, the
paths to its source that contain the variable. -/
def findVariablePaths (c : Circuit) (varId : String) : List (List String) :=
  c.outputs.foldl (fun acc op =>
    acc ++ (findAllPathsToGate c op.2.source).filter (fun path => path.contains varId)) []

/-- The record appended per variable by `_find_variables_with_negation`
(detector.py 840-848). -/
structure VarNegInfo where
  var_name : String
  id : String
  negation_paths : List (List String)
  original_paths : List (List String)
  direct_not_gates : List String
  has_convergence : Bool
  convergence_points : List String
  deriving Repr, DecidableEq

/-- The direct-NOT scan of `_find_variables_with_negation` (detector.py
779-793): gates of type NOT that a connection leads to straight from the
input. -/
def directNotGates (c : Circuit) (inputId : String) : List String :=
  (c.connections.filter (fun cn => cn.frm = inputId &&
      (match c.gates.lookup cn.toId with | some g => g.type == "NOT" | none => false))).map
    (fun cn => cn.toId)

/-- The path split of `_find_variables_with_negation` (detector.py 804-817):
a path whose node right after the variable is one of its direct NOT gates is
a negation path, one with some other successor is an original path; paths in
which the variable is the last node are dropped. -/
def splitVarPaths (inputId : String) (dng : List String) (paths : List (List String)) :
    List (List String) × List (List String) :=
  paths.foldl (fun acc path =>
    if path.contains inputId then
      match path.get? (path.indexOf inputId + 1) with
      | some nxt =>
        if dng.contains nxt then (acc.1, acc.2 ++ [path]) else (acc.1 ++ [path], acc.2)
      | none => acc
    else acc) ([], [])

/-- The convergence-point computation of `_find_variables_with_negation`
(detector.py 821-838): gate ids visited by both an original and a negation
path, minus the variable and its direct NOT gates.  Python materialises this
via `set` intersection whose iteration order is hash-dependent; the model
enumerates the intersection deterministically in first-occurrence order of
the original paths. -/
def convergencePoints (inputId : String) (dng : List String)
    (orig neg : List (List String)) : List String :=
  let og := dedupFirst (orig.foldl (fun acc p => acc ++ p) [])
  let ng := neg.foldl (fun acc p => acc ++ p) []
  og.filter (fun g => ng.contains g && !(g = inputId) && !(dng.contains g))

/-- The record contributed by one primary input in
`_find_variables_with_negation` (detector.py 773-850): nothing when the input
has no direct NOT fan-out, else the variable analysis record. -/
def varNegEntry (c : Circuit) (ip : String × InputInfo) : List VarNegInfo :=
  let dng := directNotGates c ip.1
  if dng.isEmpty then []
  else
    let split := splitVarPaths ip.1 dng (findVariablePaths c ip.1)
    let common := convergencePoints ip.1 dng split.1 split.2
    [⟨ip.2.name, ip.1, split.2, split.1, dng, !common.isEmpty, common⟩]

/-- `_find_variables_with_negation` (detector.py 766-857): one record per
primary input that has at least one direct NOT fan-out. -/
def findVariablesWithNegation (c : Circuit) : List VarNegInfo :=
  c.inputs.foldl (fun acc ip => acc ++ varNegEntry c ip) []

/-- One entry of a `hazard_gates` list (detector.py 348-355, 945-952). -/
structure HazardGateRec where
  gate_id : String
  gate_type : String
  inputs : List String
  hazard_type : String
  critical : Bool
  description : String
  deriving Repr, DecidableEq

/-- One entry of the returned `hazards` list (detector.py 384-390, 954-959);
`other_inputs` is present only on the symbolic-simulation route. -/
structure HazardInfo where
  var_name : String
  other_inputs : Option (List (String × Int))
  hazard_type : String
  hazard_gates : List HazardGateRec
  description : String
  deriving Repr, DecidableEq

/-- The hazard-kind classification by gate type shared by
`_check_direct_hazards` (detector.py 928-940). -/
def classifyGateHazard (gid gtype varName : String) : String × String :=
  if gtype = "AND" then
    ("静态冒险-0",
     "门 " ++ gid ++ " (AND) 可能同时接收到变量 " ++ varName ++ " 及其反相，可能产生静态冒险-0")
  else if gtype = "OR" then
    ("静态冒险-1",
     "门 " ++ gid ++ " (OR) 可能同时接收到变量 " ++ varName ++ " 及其反相，可能产生静态冒险-1")
  else
    ("动态冒险",
     "门 " ++ gid ++ " (" ++ gtype ++ ") 可能同时接收到变量 " ++ varName ++ " 及其反相，可能产生动态冒险")

/-- The hazards contributed by one variable in `_check_direct_hazards`
(detector.py 908-959): skip variables without convergence points, else one
hazard per convergence point that is a valid gate id. -/
def directHazardEntries (c : Circuit) (vi : VarNegInfo) : List HazardInfo :=
  if !vi.has_convergence || vi.convergence_points.isEmpty then []
  else
    vi.convergence_points.foldl (fun hacc gid =>
      hacc ++ (match c.gates.lookup gid with
        | none => []
        | some gate =>
          let cls := classifyGateHazard gid gate.type vi.var_name
          [⟨vi.var_name, none, cls.1,
            [⟨gid, gate.type, gate.inputs, cls.1, true, cls.2⟩],
            "变量 " ++ vi.var_name ++ " 可能导致 " ++ cls.1 ++ "，因为存在互补输入的门"⟩])) []

/-- `_check_direct_hazards` (detector.py 890-962): classify every convergence
point of every variable-with-negation directly by gate kind. -/
def checkDirectHazards (c : Circuit) : List HazardInfo :=
  (findVariablesWithNegation c).foldl (fun acc vi => acc ++ directHazardEntries c vi) []

/-- `_reverse_topological_sort` (detector.py 395-405). -/
def reverseTopologicalSort (c : Circuit) : Except PyError (List String) :=
  match topologicalSort c with
  | .ok fwd => .ok fwd.reverse
  | .error e => .error e

/-- The traversal loop of `_analyze_hazard_with_special_variable` (detector.py
337-362), threading `(circuit_state, hazard_gates)` through the gates in
reverse topological order.  The convergence-point pre-scan (lines 304-331) and
its diagnostic re-check (lines 366-377) only produce log output and are
omitted. -/
def analyzeLoop (c : Circuit) :
    List String → List (String × SymVal) → List HazardGateRec →
    Except PyError (List (String × SymVal) × List HazardGateRec)
  | [], state, hz => .ok (state, hz)
  | gid :: rest, state, hz =>
    match c.gates.lookup gid with
    | none => .error (.keyError gid)
    | some gate =>
      let gi := collectGateInputs c gid gate state
      let hz' := match checkGateForHazard gid gate gi with
        | some hc => hz ++ [⟨gid, gate.type, gate.inputs, hc.htype, true, hc.description⟩]
        | none => hz
      analyzeLoop c rest (dictInsert gid (computeSpecialGateOutput gate gi) state) hz'

/-- `_analyze_hazard_with_special_variable` (detector.py 268-393): seed the
state with the other inputs as constants and the target variable as the
symbolic literal, run the loop, and report the collected hazard gates. -/
def analyzeHazardWithSpecialVariable (c : Circuit) (varId varName : String)
    (otherInputs : List (String × Int)) : Except PyError (Option HazardInfo) :=
  let inputValues := dictInsert varId (SymVal.special varId varName)
      (otherInputs.map (fun p => (p.1, SymVal.const p.2)))
  match reverseTopologicalSort c with
  | .error e => .error e
  | .ok sortedGates =>
    match analyzeLoop c sortedGates inputValues [] with
    | .error e => .error e
    | .ok r =>
      match r.2 with
      | [] => .ok none
      | hg :: _ => .ok (some ⟨varName, some otherInputs, hg.hazard_type, r.2,
          "变量 " ++ varName ++ " 可能导致 " ++ hg.hazard_type ++ "，因为存在互补输入的门"⟩)

/-- The inner loop of `_detect_hazards_by_expression` (detector.py 255-260):
analyse one variable under every assignment of the other inputs, appending
each reported hazard. -/
def analyzeCombos (c : Circuit) (vid vname : String) :
    List (List (String × Int)) → List HazardInfo → Except PyError (List HazardInfo)
  | [], acc => .ok acc
  | combo :: rest, acc =>
    match analyzeHazardWithSpecialVariable c vid vname combo with
    | .ok (some h) => analyzeCombos c vid vname rest (acc ++ [h])
    | .ok none => analyzeCombos c vid vname rest acc
    | .error e => .error e

/-- The outer loop of `_detect_hazards_by_expression` (detector.py 238-263). -/
def analyzeVars (c : Circuit) (inputIds : List String) :
    List VarNegInfo → List HazardInfo → Except PyError (List HazardInfo)
  | [], acc => .ok acc
  | vi :: rest, acc =>
    match analyzeCombos c vi.id vi.var_name
        (generateAllInputCombinations (inputIds.filter (fun i => i ≠ vi.id))) acc with
    | .ok acc2 => analyzeVars c inputIds rest acc2
    | .error e => .error e

/-- `_detect_hazards_by_expression` (detector.py 212-266): for every variable
with a direct negation, analyse every assignment of the other inputs. -/
def detectHazardsByExpression (c : Circuit) : Except PyError (List HazardInfo) :=
  let vars := findVariablesWithNegation c
  if vars.isEmpty then .ok []
  else analyzeVars c (c.inputs.map Prod.fst) vars []

/-- The hazards branch of `detect_hazards` (detector.py 38-47): symbolic
route first, direct route only when it found nothing. -/
def hazardsSub (c : Circuit) : Except PyError (List HazardInfo) :=
  match detectHazardsByExpression c with
  | .ok h => if h.isEmpty then .ok (checkDirectHazards c) else .ok h
  | .error e => .error e

/-- The record returned by `detect_hazards` (detector.py 54-57). -/
structure DetectionResult where
  race_conditions : List RaceCondition
  hazards : List HazardInfo
  deriving Repr, DecidableEq

/-- `HazardDetector.detect_hazards` (detector.py 20-58): each sub-check is
wrapped in a `try/except` that degrades its failure to an empty list.  The
race sweep cannot raise (every helper it uses catches its own exceptions), so
it is total here; the hazard sweep can raise (topological sort of a cyclic
gate graph) and its failure yields `[]`. -/
def detectHazards (c : Circuit) : DetectionResult :=
  { race_conditions := detectRaceConditions c,
    hazards := match hazardsSub c with | .ok h => h | .error _ => [] }

/-! ## General helper lemmas -/

theorem foldl_append_eq {α β : Type} (f : α → List β) :
    ∀ (l : List α) (acc : List β),
      l.foldl (fun a x => a ++ f x) acc = acc ++ (l.map f).flatten
  | [], acc => by simp
  | x :: xs, acc => by
    simp only [List.foldl_cons, List.map_cons, List.flatten]
    rw [foldl_append_eq f xs (acc ++ f x)]
    simp [List.append_assoc]

theorem lookup_mem {α : Type} : ∀ {l : List (String × α)} {k : String} {v : α},
    l.lookup k = some v → (k, v) ∈ l
  | [], _, _, h => by simp at h
  | (a, b) :: rest, k, v, h => by
    rw [List.lookup_cons] at h
    by_cases hk : k == a
    · simp only [hk, if_pos] at h
      cases h
      have : k = a := by simpa using hk
      subst this
      exact List.mem_cons_self _ _
    · simp only [hk, if_neg, Bool.false_eq_true, not_false_eq_true] at h
      exact List.mem_cons_of_mem _ (lookup_mem h)

/-! ## Connection-graph reachability (for stating C1's universal part) -/

/-- One directed connection step: some connection leads from `u` to `v`. -/
def ConnStep (c : Circuit) (u v : String) : Prop :=
  ∃ cn ∈ c.connections, cn.frm = u ∧ cn.toId = v

/-- `v` is reachable from `u` along connections (reflexive-transitive). -/
def Reachable (c : Circuit) (u v : String) : Prop :=
  Relation.ReflTransGen (ConnStep c) u v

/-! ## Concrete example circuits -/

/-- C1's first circuit: input `a` feeds AND gate `g1` directly and through the
NOT gate `n1` whose output also feeds `g1`. -/
def c1ex : Circuit :=
  ⟨"c1", [("n1", ⟨"n1", "NOT", 1, ["a"], "n1"⟩), ("g1", ⟨"g1", "AND", 2, ["a", "n1"], "g1"⟩)],
   [("a", ⟨"A", 0⟩)], [("out1", ⟨"Y", "g1"⟩)],
   [⟨"a", "n1", 0.1⟩, ⟨"a", "g1", 0.1⟩, ⟨"n1", "g1", 0.1⟩]⟩

/-- C2's first circuit: one 2-input AND gate whose ports are two distinct
primary inputs with wire delays 0.1 and 0.5. -/
def r1ex : Circuit :=
  ⟨"r1", [("g1", ⟨"g1", "AND", 2, ["a", "b"], "g1"⟩)],
   [("a", ⟨"A", 0⟩), ("b", ⟨"B", 0⟩)], [("out1", ⟨"Y", "g1"⟩)],
   [⟨"a", "g1", 0.1⟩, ⟨"b", "g1", 0.5⟩]⟩

/-- C2's second circuit: the same AND gate with wire delays 0.1 and 0.7. -/
def r2ex : Circuit :=
  ⟨"r2", [("g1", ⟨"g1", "AND", 2, ["a", "b"], "g1"⟩)],
   [("a", ⟨"A", 0⟩), ("b", ⟨"B", 0⟩)], [("out1", ⟨"Y", "g1"⟩)],
   [⟨"a", "g1", 0.1⟩, ⟨"b", "g1", 0.7⟩]⟩

/-! ## C8 -/

/-- Claim C8: `parse("A OR B AND C")` groups as `A OR (B AND C)` — the AND gate
takes `b`,`c` and feeds the OR gate together with `a` — and evaluating the
parsed circuit at `A=0,B=1,C=0` yields primary-output value 0, while
`A=1,B=0,C=0` yields 1. -/
theorem C8_precedence_grouping_and_evaluation :
    (parse "A OR B AND C").map (fun c =>
      (c.gates.map (fun p => (p.2.type, p.2.inputs)),
       (computeCircuit c (some [("a", 0), ("b", 1), ("c", 0)])).map (fun r => r.lookup "out1"),
       (computeCircuit c (some [("a", 1), ("b", 0), ("c", 0)])).map (fun r => r.lookup "out1"))) =
    .ok ([("AND", ["b", "c"]), ("OR", ["a", "g1"])], .ok (some 0), .ok (some 1)) := by
  with_unfolding_all rfl

/-! ## C6 -/

/-- Claim C6 (code bug): `parse` does raise the dedicated parse error on the
empty expression, but on unbalanced operators — two consecutive binary
operators (`"A AND AND B"`) or a dangling operator at the end (`"A AND"`) —
the unguarded `stack.pop()` in `_create_gate` raises an `IndexError`, not the
`CircuitParseError` required by the contract (and by the repository's own
`test_invalid_expression`). -/
theorem C6_parse_error_kinds :
    parse "" = .error (.parseError "表达式不能为空")
    ∧ parse "A AND AND B" = .error (.indexError "pop from empty list")
    ∧ parse "A AND" = .error (.indexError "pop from empty list") := by
  refine ⟨?_, ?_, ?_⟩ <;> with_unfolding_all rfl

/-! ## C2 -/

/-- Claim C2 (code bug): with wire delays 0.1 and 0.5 the AND gate's port pair
is flagged as a race, as the claim states; but with wire delays 0.1 and 0.7 it
is flagged as well, contradicting the claim.  The cause: a port that is a
primary input has the single path `[port]`, whose `_calculate_path_delay` is 0
(the wire from the port into the gate is never added), so both per-port delays
are 0 and `|0 - 0| < 0.5` always holds. -/
theorem C2_race_flagging_with_zero_port_delays :
    detectRaceConditions r1ex = [⟨"g1", "AND", "a", "b", 0, 0⟩]
    ∧ detectRaceConditions r2ex = [⟨"g1", "AND", "a", "b", 0, 0⟩] := by
  refine ⟨?_, ?_⟩ <;> with_unfolding_all rfl

/-! ## C1 -/

theorem directNotGates_eq_nil {c : Circuit} {i : String}
    (h : ∀ p ∈ c.gates, p.2.type = "NOT" → ¬ Reachable c i p.1) :
    directNotGates c i = [] := by
  unfold directNotGates
  rw [List.map_eq_nil_iff, List.filter_eq_nil_iff]
  intro cn hcn
  simp only [Bool.and_eq_true, decide_eq_true_eq, not_and]
  intro hfrm hnot
  cases hlk : c.gates.lookup cn.toId with
  | none => rw [hlk] at hnot; simp at hnot
  | some g =>
    rw [hlk] at hnot
    simp only [beq_iff_eq] at hnot
    exact h (cn.toId, g) (lookup_mem hlk) hnot
      (Relation.ReflTransGen.single ⟨cn, hcn, hfrm, rfl⟩)

theorem findVariablesWithNegation_eq_nil {c : Circuit}
    (h : ∀ ip ∈ c.inputs, directNotGates c ip.1 = []) :
    findVariablesWithNegation c = [] := by
  unfold findVariablesWithNegation
  rw [foldl_append_eq]
  simp only [List.nil_append]
  rw [List.flatten_eq_nil_iff]
  intro l hl
  rw [List.mem_map] at hl
  obtain ⟨ip, hip, rfl⟩ := hl
  unfold varNegEntry
  rw [h ip hip]
  simp

/-- Claim C1: the circuit in which primary input `a` feeds the 2-input AND
gate `g1` directly and also feeds the NOT gate `n1` whose output feeds `g1`
reports exactly one hazard, of kind static-0 (`静态冒险-0`), located at `g1`;
and every circuit in which no NOT gate is reachable from any primary input
(hence, in particular, no input connects directly to a NOT gate) reports an
empty hazards list. -/
theorem C1_hazard_reports :
    ((detectHazards c1ex).hazards.map
        (fun h => (h.hazard_type, h.hazard_gates.map (fun g => g.gate_id)))
      = [("静态冒险-0", ["g1"])])
    ∧ ∀ c : Circuit,
        (∀ i ∈ c.inputs.map Prod.fst, ∀ p ∈ c.gates, p.2.type = "NOT" → ¬ Reachable c i p.1) →
        (detectHazards c).hazards = [] := by
  constructor
  · decide
  · intro c h
    have hd : ∀ ip ∈ c.inputs, directNotGates c ip.1 = [] := by
      intro ip hip
      exact directNotGates_eq_nil (fun p hp ht =>
        h ip.1 (List.mem_map.mpr ⟨ip, hip, rfl⟩) p hp ht)
    have hv := findVariablesWithNegation_eq_nil hd
    simp [detectHazards, hazardsSub, detectHazardsByExpression, hv, checkDirectHazards]

/-- Witness for C1's universal part at the NOT-free circuit `r1ex`. -/
theorem C1_hazard_reports_witness :
    (∀ i ∈ r1ex.inputs.map Prod.fst, ∀ p ∈ r1ex.gates, p.2.type = "NOT" →
        ¬ Reachable r1ex i p.1)
    ∧ (detectHazards r1ex).hazards = [] := by
  have hyp : ∀ i ∈ r1ex.inputs.map Prod.fst, ∀ p ∈ r1ex.gates, p.2.type = "NOT" →
      ¬ Reachable r1ex i p.1 := by
    intro i hi p hp ht
    simp only [r1ex, List.mem_singleton] at hp
    rw [hp] at ht
    simp at ht
  exact ⟨hyp, C1_hazard_reports.2 r1ex hyp⟩

/-! ## Verification of the Kahn topological sort -/

theorem kahnStep_fold_deg : ∀ (adj : List String) (deg : String → Int)
    (queue : List String) (v : String),
    (adj.foldl kahnStep (deg, queue)).1 v = deg v - (adj.count v : Int)
  | [], deg, queue, v => by simp
  | nb :: rest, deg, queue, v => by
    rw [List.foldl_cons, kahnStep_fold_deg rest _ _ v]
    simp only [kahnStep]
    by_cases h : v = nb
    · subst h
      simp only [if_pos rfl, List.count_cons_self]
      push_cast
      ring
    · simp only [if_neg h, List.count_cons_of_ne (fun hc => h (by simpa using hc))]

theorem kahnStep_fold_queue : ∀ (adj : List String) (deg : String → Int)
    (queue : List String),
    ∃ newly, (adj.foldl kahnStep (deg, queue)).2 = queue ++ newly
      ∧ newly.Nodup
      ∧ ∀ v, (v ∈ newly ↔ 0 < deg v ∧ deg v ≤ (adj.count v : Int))
  | [], deg, queue => by
    refine ⟨[], by simp, List.nodup_nil, fun v => ?_⟩
    simp only [List.not_mem_nil, false_iff, List.count_nil]
    intro ⟨h1, h2⟩
    omega
  | nb :: rest, deg, queue => by
    rw [List.foldl_cons]
    have hstep : kahnStep (deg, queue) nb =
        (fun x => if x = nb then deg nb - 1 else deg x,
         if deg nb - 1 = 0 then queue ++ [nb] else queue) := rfl
    rw [hstep]
    obtain ⟨n1, hq, hnd, hiff⟩ := kahnStep_fold_queue rest
      (fun x => if x = nb then deg nb - 1 else deg x)
      (if deg nb - 1 = 0 then queue ++ [nb] else queue)
    by_cases hd : deg nb - 1 = 0
    · refine ⟨nb :: n1, ?_, ?_, ?_⟩
      · rw [hq, if_pos hd]
        simp
      · refine List.nodup_cons.mpr ⟨?_, hnd⟩
        intro hmem
        have := (hiff nb).mp hmem
        rw [if_pos rfl] at this
        omega
      · intro v
        by_cases hv : v = nb
        · subst hv
          simp only [List.mem_cons, true_or, true_iff, List.count_cons_self]
          constructor
          · omega
          · push_cast
            have hc : (0 : Int) ≤ rest.count v := Int.ofNat_nonneg _
            omega
        · simp only [List.mem_cons, hv, false_or]
          rw [hiff v, if_neg hv,
            List.count_cons_of_ne (fun hc => hv (by simpa using hc))]
    · refine ⟨n1, ?_, hnd, ?_⟩
      · rw [hq, if_neg hd]
      · intro v
        by_cases hv : v = nb
        · subst hv
          rw [hiff v, if_pos rfl, List.count_cons_self]
          push_cast
          constructor
          · intro ⟨h1, h2⟩
            omega
          · intro ⟨h1, h2⟩
            omega
        · rw [hiff v, if_neg hv,
            List.count_cons_of_ne (fun hc => hv (by simpa using hc))]

theorem contains_iff {l : List String} {a : String} : l.contains a = true ↔ a ∈ l := by
  simp [List.contains_iff_exists_mem_beq]

theorem contains_eq_decide (l : List String) (a : String) : l.contains a = decide (a ∈ l) := by
  by_cases h : a ∈ l
  · rw [contains_iff.mpr h, decide_eq_true h]
  · rw [decide_eq_false h]
    rcases hc : l.contains a
    · rfl
    · exact absurd (contains_iff.mp hc) h

theorem length_filter_split {α : Type} (P Q : α → Bool) :
    ∀ l : List α, (l.filter P).length
      = (l.filter (fun a => P a && Q a)).length
        + (l.filter (fun a => P a && !Q a)).length
  | [] => by simp
  | a :: l => by
    by_cases hp : P a
    · by_cases hq : Q a
      · simp [List.filter_cons, hp, hq, length_filter_split P Q l]
        omega
      · simp [List.filter_cons, hp, hq, length_filter_split P Q l]
        omega
    · simp [List.filter_cons, hp, length_filter_split P Q l]

theorem ggEdges_mem_keys {c : Circuit} {e : String × String} (h : e ∈ ggEdges c) :
    e.1 ∈ gateKeys c ∧ e.2 ∈ gateKeys c := by
  unfold ggEdges at h
  rw [List.mem_map] at h
  obtain ⟨cn, hcn, rfl⟩ := h
  rw [List.mem_filter] at hcn
  have h2 := hcn.2
  simp only [Bool.and_eq_true, isGateId] at h2
  exact ⟨contains_iff.mp h2.1, contains_iff.mp h2.2⟩

/-- The number of gate-to-gate edges into `v` whose source is not in `sorted`
(as an integer, the value the loop's `in_degree[v]` holds). -/
def pendingInto (c : Circuit) (sorted : List String) (v : String) : Int :=
  ((((ggEdges c).filter (fun e => e.2 = v && !(sorted.contains e.1))).length : Nat) : Int)

theorem pendingInto_nonneg (c : Circuit) (sorted : List String) (v : String) :
    0 ≤ pendingInto c sorted v := Int.ofNat_nonneg _

theorem kahnAdj_count (c : Circuit) (q v : String) :
    ((kahnAdj c q).count v : Int)
      = (((ggEdges c).filter (fun e => e.2 = v && e.1 = q)).length : Int) := by
  unfold kahnAdj
  rw [List.count, List.countP_map, List.countP_filter, List.countP_eq_length_filter]
  norm_cast

theorem pendingInto_split {c : Circuit} {sorted : List String} {q : String}
    (hq : q ∉ sorted) (v : String) :
    pendingInto c sorted v
      = pendingInto c (sorted ++ [q]) v + ((kahnAdj c q).count v : Int) := by
  have h1 : List.filter (fun e : String × String =>
        (decide (e.2 = v) && !(sorted.contains e.1)) && !(e.1 == q)) (ggEdges c)
      = List.filter (fun e => decide (e.2 = v) && !((sorted ++ [q]).contains e.1))
          (ggEdges c) := by
    apply List.filter_congr
    intro e _
    rw [contains_eq_decide, contains_eq_decide]
    by_cases hA : e.2 = v <;> by_cases hS : e.1 ∈ sorted <;> by_cases hB : e.1 = q <;>
      simp [hA, hS, hB]
  have h2 : List.filter (fun e : String × String =>
        (decide (e.2 = v) && !(sorted.contains e.1)) && !(!(e.1 == q))) (ggEdges c)
      = List.filter (fun e => decide (e.2 = v) && decide (e.1 = q)) (ggEdges c) := by
    apply List.filter_congr
    intro e _
    rw [contains_eq_decide]
    by_cases hA : e.2 = v
    · by_cases hB : e.1 = q
      · simp [hA, hB]
        exact hq
      · simp [hA, hB]
    · simp [hA]
  have key : ((ggEdges c).filter (fun e => decide (e.2 = v) && !(sorted.contains e.1))).length
      = ((ggEdges c).filter
            (fun e => decide (e.2 = v) && !((sorted ++ [q]).contains e.1))).length
        + ((ggEdges c).filter (fun e => decide (e.2 = v) && decide (e.1 = q))).length := by
    rw [← h1, ← h2]
    exact length_filter_split _ _ _
  unfold pendingInto
  rw [kahnAdj_count]
  push_cast [key]
  ring

theorem pendingInto_eq_zero_of_closed {c : Circuit} {sorted : List String}
    (hclosed : ∀ e ∈ ggEdges c, e.2 ∈ sorted → e.1 ∈ sorted) {v : String} (hv : v ∈ sorted) :
    pendingInto c sorted v = 0 := by
  unfold pendingInto
  norm_cast
  rw [List.length_eq_zero, List.filter_eq_nil_iff]
  intro e he
  by_cases h2 : e.2 = v
  · have h1 : e.1 ∈ sorted := hclosed e he (h2 ▸ hv)
    rw [contains_eq_decide]
    simp [h2, h1]
  · simp [h2]

theorem pendingInto_zero_source_mem {c : Circuit} {sorted : List String} {v : String}
    (hz : pendingInto c sorted v = 0) {e : String × String} (he : e ∈ ggEdges c)
    (h2 : e.2 = v) : e.1 ∈ sorted := by
  by_contra h1
  unfold pendingInto at hz
  norm_cast at hz
  rw [List.length_eq_zero, List.filter_eq_nil_iff] at hz
  have hmem := hz e he
  have hc : sorted.contains e.1 = false := by
    rcases hc : sorted.contains e.1
    · rfl
    · exact absurd (contains_iff.mp hc) h1
  simp [h2, hc] at hmem
  exact h1 hmem

theorem kahnAdj_count_pos_mem {c : Circuit} {q v : String}
    (h : 0 < ((kahnAdj c q).count v : Int)) : (q, v) ∈ ggEdges c := by
  have hmem : v ∈ kahnAdj c q := by
    rw [← List.count_pos_iff]
    exact_mod_cast h
  unfold kahnAdj at hmem
  rw [List.mem_map] at hmem
  obtain ⟨e, he, hev⟩ := hmem
  rw [List.mem_filter] at he
  have h1 : e.1 = q := by simpa using he.2
  have : e = (q, v) := by
    cases e
    simp only [Prod.mk.injEq]
    exact ⟨h1, hev⟩
  exact this ▸ he.1

/-- Loop invariant of `kahnLoop`: the emitted prefix `sorted` and the pending
zero-degree `queue` are disjoint gate ids, `deg` holds the number of
gate-to-gate edges from not-yet-emitted sources, queued gates have degree 0,
unreached gates have nonzero degree, and `sorted` respects the edge order. -/
def KahnInv (c : Circuit) (deg : String → Int) (queue sorted : List String) : Prop :=
  (sorted ++ queue).Nodup
  ∧ (∀ x ∈ sorted ++ queue, x ∈ gateKeys c)
  ∧ (∀ v, deg v = pendingInto c sorted v)
  ∧ (∀ v ∈ queue, deg v = 0)
  ∧ (∀ v ∈ gateKeys c, v ∉ sorted → v ∉ queue → deg v ≠ 0)
  ∧ (∀ e ∈ ggEdges c, e.2 ∈ sorted →
      e.1 ∈ sorted ∧ sorted.indexOf e.1 < sorted.indexOf e.2)

theorem kahnPop_preserves {c : Circuit} {deg : String → Int} {q : String}
    {rest sorted : List String} (hinv : KahnInv c deg (q :: rest) sorted) :
    KahnInv c ((kahnAdj c q).foldl kahnStep (deg, rest)).1
      ((kahnAdj c q).foldl kahnStep (deg, rest)).2 (sorted ++ [q]) := by
  obtain ⟨hnd, hkeys, hdeg, hq0, hnz, hord⟩ := hinv
  have hnd2 : ((sorted ++ [q]) ++ rest).Nodup := by
    have : sorted ++ q :: rest = (sorted ++ [q]) ++ rest := by simp
    exact this ▸ hnd
  have hqns : q ∉ sorted := by
    have h := (List.nodup_append.mp hnd).2.2
    intro hmem
    exact h hmem (List.mem_cons_self q rest)
  have hdeg' := kahnStep_fold_deg (kahnAdj c q) deg rest
  obtain ⟨newly, hqueue, hnewnd, hnewiff⟩ := kahnStep_fold_queue (kahnAdj c q) deg rest
  have hsplit : ∀ v, deg v = pendingInto c (sorted ++ [q]) v
      + ((kahnAdj c q).count v : Int) := fun v => (hdeg v).trans (pendingInto_split hqns v)
  have hm_le : ∀ v, ((kahnAdj c q).count v : Int) ≤ deg v := by
    intro v
    have := pendingInto_nonneg c (sorted ++ [q]) v
    have h := hsplit v
    omega
  have hdegq : deg q = 0 := hq0 q (List.mem_cons_self q rest)
  have hdeg'pend : ∀ v, ((kahnAdj c q).foldl kahnStep (deg, rest)).1 v
      = pendingInto c (sorted ++ [q]) v := by
    intro v
    rw [hdeg' v]
    have := hsplit v
    omega
  have hnew_not_sorted : ∀ v ∈ newly, v ∉ sorted := by
    intro v hv hvs
    have hpos := ((hnewiff v).mp hv).1
    have hzero : pendingInto c sorted v = 0 :=
      pendingInto_eq_zero_of_closed (fun e he h2 => (hord e he h2).1) hvs
    rw [hdeg v, hzero] at hpos
    omega
  have hnew_not_queue : ∀ v ∈ newly, v ∉ q :: rest := by
    intro v hv hvq
    have hpos := ((hnewiff v).mp hv).1
    rw [hq0 v hvq] at hpos
    omega
  have hnew_keys : ∀ v ∈ newly, v ∈ gateKeys c := by
    intro v hv
    obtain ⟨hpos, hle⟩ := (hnewiff v).mp hv
    have hmpos : 0 < ((kahnAdj c q).count v : Int) := by omega
    exact (ggEdges_mem_keys (kahnAdj_count_pos_mem hmpos)).2
  have hnew_deg0 : ∀ v ∈ newly, ((kahnAdj c q).foldl kahnStep (deg, rest)).1 v = 0 := by
    intro v hv
    obtain ⟨hpos, hle⟩ := (hnewiff v).mp hv
    have := hm_le v
    rw [hdeg' v]
    omega
  have hrest_m0 : ∀ v ∈ rest, ((kahnAdj c q).count v : Int) = 0 := by
    intro v hv
    have h0 := hq0 v (List.mem_cons_of_mem q hv)
    have := hm_le v
    have hc : (0 : Int) ≤ ((kahnAdj c q).count v : Int) := Int.ofNat_nonneg _
    omega
  refine ⟨?_, ?_, hdeg'pend, ?_, ?_, ?_⟩
  · -- Nodup
    rw [hqueue]
    have : (sorted ++ [q]) ++ (rest ++ newly) = ((sorted ++ [q]) ++ rest) ++ newly := by
      simp
    rw [this, List.nodup_append]
    refine ⟨hnd2, hnewnd, ?_⟩
    intro x hx hxn
    rcases List.mem_append.mp hx with hx1 | hx2
    · rcases List.mem_append.mp hx1 with hxs | hxq
      · exact hnew_not_sorted x hxn hxs
      · exact hnew_not_queue x hxn (List.mem_singleton.mp hxq ▸ List.mem_cons_self q rest)
    · exact hnew_not_queue x hxn (List.mem_cons_of_mem q hx2)
  · -- membership in gate keys
    rw [hqueue]
    intro x hx
    rcases List.mem_append.mp hx with hx1 | hx2
    · rcases List.mem_append.mp hx1 with hxs | hxq
      · exact hkeys x (List.mem_append.mpr (Or.inl hxs))
      · exact hkeys x (List.mem_append.mpr (Or.inr
          (List.mem_singleton.mp hxq ▸ List.mem_cons_self q rest)))
    · rcases List.mem_append.mp hx2 with hxr | hxn
      · exact hkeys x (List.mem_append.mpr (Or.inr (List.mem_cons_of_mem q hxr)))
      · exact hnew_keys x hxn
  · -- queue degrees zero
    rw [hqueue]
    intro v hv
    rcases List.mem_append.mp hv with hvr | hvn
    · rw [hdeg' v, hq0 v (List.mem_cons_of_mem q hvr), hrest_m0 v hvr]
      omega
    · exact hnew_deg0 v hvn
  · -- unreached gates: nonzero degree
    rw [hqueue]
    intro v hvk hvs hvq
    rw [hdeg' v]
    intro hcontra
    by_cases hm : ((kahnAdj c q).count v : Int) = 0
    · rw [hm] at hcontra
      have hv0 : deg v = 0 := by omega
      have hvnotS : v ∉ sorted := fun hs => hvs (List.mem_append.mpr (Or.inl hs))
      have hvnotq : v ∉ q :: rest := by
        intro hq
        rcases List.mem_cons.mp hq with h | h
        · exact hvs (List.mem_append.mpr (Or.inr (h ▸ List.mem_singleton_self q)))
        · exact hvq (List.mem_append.mpr (Or.inl h))
      exact hnz v hvk hvnotS hvnotq hv0
    · have hc : (0 : Int) ≤ ((kahnAdj c q).count v : Int) := Int.ofNat_nonneg _
      have hvn : v ∈ newly := (hnewiff v).mpr (by omega)
      exact hvq (List.mem_append.mpr (Or.inr hvn))
  · -- order property
    intro e he h2
    rcases List.mem_append.mp h2 with h2s | h2q
    · obtain ⟨h1, hidx⟩ := hord e he h2s
      refine ⟨List.mem_append.mpr (Or.inl h1), ?_⟩
      rw [List.indexOf_append_of_mem h1, List.indexOf_append_of_mem h2s]
      exact hidx
    · have h2q : e.2 = q := List.mem_singleton.mp h2q
      have hpend : pendingInto c sorted q = 0 := by rw [← hdeg q]; exact hdegq
      have h1 : e.1 ∈ sorted := pendingInto_zero_source_mem hpend he h2q
      refine ⟨List.mem_append.mpr (Or.inl h1), ?_⟩
      rw [List.indexOf_append_of_mem h1, h2q,
        List.indexOf_append_of_not_mem hqns]
      simp only [List.indexOf_cons_self, Nat.add_zero]
      exact List.indexOf_lt_length.mpr h1

/-- Postcondition of `kahnLoop`: a duplicate-free list of gate keys respecting
the gate-to-gate edge order, such that every unemitted gate still has an
unemitted predecessor. -/
def kahnPost (c : Circuit) (result : List String) : Prop :=
  result.Nodup
  ∧ (∀ x ∈ result, x ∈ gateKeys c)
  ∧ (∀ e ∈ ggEdges c, e.2 ∈ result →
      e.1 ∈ result ∧ result.indexOf e.1 < result.indexOf e.2)
  ∧ (∀ v ∈ gateKeys c, v ∉ result → ∃ e ∈ ggEdges c, e.2 = v ∧ e.1 ∉ result)

theorem kahnLoop_post (c : Circuit) :
    ∀ (fuel : Nat) (deg : String → Int) (queue sorted : List String),
      KahnInv c deg queue sorted →
      (gateKeys c).length < fuel + sorted.length →
      kahnPost c (kahnLoop c fuel deg queue sorted)
  | 0, deg, queue, sorted, hinv, hfuel => by
    exfalso
    obtain ⟨hnd, hkeys, _⟩ := hinv
    have hnds : sorted.Nodup := (List.nodup_append.mp hnd).1
    have hsub : sorted ⊆ gateKeys c := fun x hx =>
      hkeys x (List.mem_append.mpr (Or.inl hx))
    have := List.Subperm.length_le (List.subperm_of_subset hnds hsub)
    omega
  | fuel + 1, deg, [], sorted, hinv, hfuel => by
    obtain ⟨hnd, hkeys, hdeg, _, hnz, hord⟩ := hinv
    have hres : kahnLoop c (fuel + 1) deg [] sorted = sorted := by
      simp [kahnLoop]
    rw [hres]
    refine ⟨(List.nodup_append.mp hnd).1,
      fun x hx => hkeys x (List.mem_append.mpr (Or.inl hx)), hord, ?_⟩
    intro v hvk hvs
    have hdnz := hnz v hvk hvs (List.not_mem_nil v)
    rw [hdeg v] at hdnz
    unfold pendingInto at hdnz
    have hne : ((ggEdges c).filter
        (fun e => decide (e.2 = v) && !(sorted.contains e.1))) ≠ [] := by
      intro hnil
      rw [hnil] at hdnz
      simp at hdnz
    obtain ⟨e, he⟩ := List.exists_mem_of_ne_nil _ hne
    rw [List.mem_filter] at he
    refine ⟨e, he.1, ?_, ?_⟩
    · have := he.2
      simp only [Bool.and_eq_true, decide_eq_true_eq] at this
      exact this.1
    · have := he.2
      simp only [Bool.and_eq_true, Bool.not_eq_true'] at this
      intro hmem
      rw [contains_iff.mpr hmem] at this
      exact Bool.false_ne_true this.2.symm
  | fuel + 1, deg, q :: rest, sorted, hinv, hfuel => by
    have h := kahnLoop_post c fuel
      ((kahnAdj c q).foldl kahnStep (deg, rest)).1
      ((kahnAdj c q).foldl kahnStep (deg, rest)).2
      (sorted ++ [q]) (kahnPop_preserves hinv)
      (by simp only [List.length_append, List.length_singleton]; omega)
    simpa [kahnLoop] using h

theorem kahnInv_init (c : Circuit) (hnd : (gateKeys c).Nodup) :
    KahnInv c (kahnIndeg c) ((gateKeys c).filter (fun g => kahnIndeg c g == 0)) [] := by
  refine ⟨?_, ?_, ?_, ?_, ?_, ?_⟩
  · simpa using hnd.filter _
  · intro x hx
    rw [List.nil_append] at hx
    exact (List.mem_filter.mp hx).1
  · intro v
    unfold kahnIndeg pendingInto
    norm_cast
    congr 1
    apply List.filter_congr
    intro e _
    simp
  · intro v hv
    have := (List.mem_filter.mp hv).2
    simpa using this
  · intro v hvk hvs hvq
    intro h0
    exact hvq (List.mem_filter.mpr ⟨hvk, by simp [h0]⟩)
  · intro e _ h2
    exact absurd h2 (List.not_mem_nil _)

theorem gateKeys_length (c : Circuit) : (gateKeys c).length = c.gates.length :=
  List.length_map _ _

theorem topologicalSort_ok_spec {c : Circuit} (hnd : (gateKeys c).Nodup)
    {order : List String} (h : topologicalSort c = .ok order) :
    kahnPost c order ∧ order.length = c.gates.length ∧ ∀ g ∈ gateKeys c, g ∈ order := by
  unfold topologicalSort at h
  by_cases hlen : (kahnLoop c ((gateKeys c).length + 1) (kahnIndeg c)
      ((gateKeys c).filter (fun g => kahnIndeg c g == 0)) []).length = c.gates.length
  · rw [if_pos hlen] at h
    have horder : order = kahnLoop c ((gateKeys c).length + 1) (kahnIndeg c)
        ((gateKeys c).filter (fun g => kahnIndeg c g == 0)) [] := by
      injection h with h'
      exact h'.symm
    subst horder
    have hpost := kahnLoop_post c ((gateKeys c).length + 1) (kahnIndeg c)
      ((gateKeys c).filter (fun g => kahnIndeg c g == 0)) [] (kahnInv_init c hnd)
      (by simp)
    refine ⟨hpost, hlen, ?_⟩
    have hsub : List.Subperm (kahnLoop c ((gateKeys c).length + 1) (kahnIndeg c)
        ((gateKeys c).filter (fun g => kahnIndeg c g == 0)) []) (gateKeys c) :=
      List.subperm_of_subset hpost.1 (fun x hx => hpost.2.1 x hx)
    have hperm := hsub.perm_of_length_le (by rw [hlen, gateKeys_length])
    exact fun g hg => hperm.symm.subset hg
  · rw [if_neg hlen] at h
    simp at h

/-- One gate-to-gate edge of the subgraph the topological sort works on. -/
def GGStep (c : Circuit) (u v : String) : Prop := (u, v) ∈ ggEdges c

/-- The gate-to-gate connection subgraph contains a (directed) cycle. -/
def HasGGCycle (c : Circuit) : Prop := ∃ v, Relation.TransGen (GGStep c) v v

/-- A finite nonempty set in which every element has a predecessor inside the
set contains a cycle (backward-chain pigeonhole). -/
theorem exists_cycle_of_pred {E : String → String → Prop} {R : List String}
    (hne : R ≠ []) (hpred : ∀ v ∈ R, ∃ u ∈ R, E u v) :
    ∃ v, Relation.TransGen E v v := by
  classical
  obtain ⟨v0, hv0⟩ := List.exists_mem_of_ne_nil R hne
  let f : String → String := fun v => if h : ∃ u ∈ R, E u v then h.choose else v0
  have hf : ∀ v ∈ R, f v ∈ R ∧ E (f v) v := by
    intro v hv
    have hEx := hpred v hv
    simp only [f, dif_pos hEx]
    obtain ⟨hu, he⟩ := hEx.choose_spec
    exact ⟨hu, he⟩
  let g : Nat → String := fun n => Nat.rec v0 (fun _ prev => f prev) n
  have hgmem : ∀ n, g n ∈ R := by
    intro n
    induction n with
    | zero => exact hv0
    | succ k ih => exact (hf (g k) ih).1
  have hgstep : ∀ n, E (g (n + 1)) (g n) := fun n => (hf (g n) (hgmem n)).2
  have hchain : ∀ i j, i < j → Relation.TransGen E (g j) (g i) := by
    intro i j
    induction j with
    | zero => omega
    | succ k ih =>
      intro hij
      by_cases hik : i = k
      · subst hik
        exact Relation.TransGen.single (hgstep i)
      · exact Relation.TransGen.head (hgstep k) (ih (by omega))
  have hmap : ∀ n ∈ Finset.range (R.length + 1), g n ∈ R.toFinset := by
    intro n _
    exact List.mem_toFinset.mpr (hgmem n)
  have hcard : R.toFinset.card < (Finset.range (R.length + 1)).card := by
    rw [Finset.card_range]
    exact Nat.lt_succ_of_le (List.toFinset_card_le R)
  obtain ⟨i, hi, j, hj, hij, hgij⟩ :=
    Finset.exists_ne_map_eq_of_card_lt_of_maps_to hcard hmap
  rcases Nat.lt_or_ge i j with hlt | hge
  · exact ⟨g i, hgij ▸ hchain i j hlt⟩
  · have hlt : j < i := by omega
    exact ⟨g j, hgij ▸ hchain j i hlt⟩

theorem kahnLoop_full {c : Circuit} (hnd : (gateKeys c).Nodup) (hacyc : ¬ HasGGCycle c) :
    (kahnLoop c ((gateKeys c).length + 1) (kahnIndeg c)
      ((gateKeys c).filter (fun g => kahnIndeg c g == 0)) []).length = c.gates.length := by
  set L := kahnLoop c ((gateKeys c).length + 1) (kahnIndeg c)
      ((gateKeys c).filter (fun g => kahnIndeg c g == 0)) [] with hL
  have hpost := kahnLoop_post c ((gateKeys c).length + 1) (kahnIndeg c)
      ((gateKeys c).filter (fun g => kahnIndeg c g == 0)) [] (kahnInv_init c hnd)
      (by simp)
  rw [← hL] at hpost
  have hall : ∀ g ∈ gateKeys c, g ∈ L := by
    by_contra hnall
    push_neg at hnall
    obtain ⟨v, hv, hvL⟩ := hnall
    have hvR : v ∈ (gateKeys c).filter (fun x => !(decide (x ∈ L))) :=
      List.mem_filter.mpr ⟨hv, by simpa using hvL⟩
    have hRne : (gateKeys c).filter (fun x => !(decide (x ∈ L))) ≠ [] :=
      List.ne_nil_of_mem hvR
    have hpredR : ∀ w ∈ (gateKeys c).filter (fun x => !(decide (x ∈ L))),
        ∃ u ∈ (gateKeys c).filter (fun x => !(decide (x ∈ L))), GGStep c u w := by
      intro w hw
      have hwk : w ∈ gateKeys c := (List.mem_filter.mp hw).1
      have hwL : w ∉ L := by simpa using (List.mem_filter.mp hw).2
      obtain ⟨e, he, h2, h1⟩ := hpost.2.2.2 w hwk hwL
      have h1k : e.1 ∈ gateKeys c := (ggEdges_mem_keys he).1
      refine ⟨e.1, List.mem_filter.mpr ⟨h1k, by simpa using h1⟩, ?_⟩
      have : (e.1, w) = e := by
        cases e
        simp only [Prod.mk.injEq, true_and]
        exact h2.symm
      exact (show GGStep c e.1 w from this ▸ he)
    exact hacyc (exists_cycle_of_pred hRne hpredR)
  have h1 : L.length ≤ (gateKeys c).length :=
    List.Subperm.length_le (List.subperm_of_subset hpost.1 (fun x hx => hpost.2.1 x hx))
  have h2 : (gateKeys c).length ≤ L.length :=
    List.Subperm.length_le (List.subperm_of_subset hnd hall)
  rw [← gateKeys_length c]
  omega

theorem topologicalSort_ok_of_acyclic {c : Circuit} (hnd : (gateKeys c).Nodup)
    (hacyc : ¬ HasGGCycle c) : ∃ order, topologicalSort c = .ok order := by
  refine ⟨kahnLoop c ((gateKeys c).length + 1) (kahnIndeg c)
      ((gateKeys c).filter (fun g => kahnIndeg c g == 0)) [], ?_⟩
  unfold topologicalSort
  rw [if_pos (kahnLoop_full hnd hacyc)]

theorem transGen_index_lt {c : Circuit} (hnd : (gateKeys c).Nodup) {order : List String}
    (hok : topologicalSort c = .ok order) :
    ∀ u w, Relation.TransGen (GGStep c) u w → order.indexOf u < order.indexOf w := by
  obtain ⟨hpost, _, hall⟩ := topologicalSort_ok_spec hnd hok
  intro u w h
  induction h with
  | single hstep =>
    have h2mem : (u, _).2 ∈ order := hall _ (ggEdges_mem_keys hstep).2
    exact (hpost.2.2.1 _ hstep h2mem).2
  | tail hprev hstep ih =>
    have h2mem := hall _ (ggEdges_mem_keys hstep).2
    exact Nat.lt_trans ih (hpost.2.2.1 _ hstep h2mem).2

theorem topologicalSort_error_of_cycle {c : Circuit} (hnd : (gateKeys c).Nodup)
    (hcyc : HasGGCycle c) :
    topologicalSort c = .error (.valueError "电路中存在环路，无法进行拓扑排序") := by
  rcases hok : topologicalSort c with order | e
  case error =>
    unfold topologicalSort at hok
    by_cases hlen : (kahnLoop c ((gateKeys c).length + 1) (kahnIndeg c)
        ((gateKeys c).filter (fun g => kahnIndeg c g == 0)) []).length = c.gates.length
    · rw [if_pos hlen] at hok
      simp at hok
    · rw [if_neg hlen] at hok
      injection hok with h
      rw [h]
  case ok =>
    exfalso
    obtain ⟨v, hv⟩ := hcyc
    exact Nat.lt_irrefl _ (transGen_index_lt hnd hok v v hv)

/-! ## C9 -/

/-- Claim C9: for every circuit whose gate-to-gate connection subgraph is
acyclic, the topological sort returns an order containing every gate in which
each gate appears after every gate feeding it through a gate-to-gate
connection; for every circuit whose gate-to-gate subgraph has a cycle, the
sort fails with the cycle `ValueError` (`CycleError`) instead of returning an
order.  (`Nodup` on the gate keys is the dict invariant of `circuit.gates`.) -/
theorem C9_topological_sort_soundness :
    (∀ c : Circuit, (gateKeys c).Nodup → ¬ HasGGCycle c →
      ∃ order, topologicalSort c = .ok order
        ∧ (∀ g ∈ gateKeys c, g ∈ order)
        ∧ (∀ e ∈ ggEdges c, order.indexOf e.1 < order.indexOf e.2))
    ∧ (∀ c : Circuit, (gateKeys c).Nodup → HasGGCycle c →
        topologicalSort c = .error (.valueError "电路中存在环路，无法进行拓扑排序")) := by
  constructor
  · intro c hnd hacyc
    obtain ⟨order, hok⟩ := topologicalSort_ok_of_acyclic hnd hacyc
    obtain ⟨hpost, _, hall⟩ := topologicalSort_ok_spec hnd hok
    refine ⟨order, hok, hall, ?_⟩
    intro e he
    exact (hpost.2.2.1 e he (hall _ (ggEdges_mem_keys he).2)).2
  · intro c hnd hcyc
    exact topologicalSort_error_of_cycle hnd hcyc

/-- A two-gate circuit with a gate-to-gate cycle. -/
def cycEx : Circuit :=
  ⟨"cyc", [("ga", ⟨"ga", "AND", 1, ["gb"], "ga"⟩), ("gb", ⟨"gb", "AND", 1, ["ga"], "gb"⟩)],
   [], [], [⟨"ga", "gb", 0.1⟩, ⟨"gb", "ga", 0.1⟩]⟩

theorem c1ex_acyclic : ¬ HasGGCycle c1ex := by
  rintro ⟨v, hv⟩
  have hstep : ∀ u w, GGStep c1ex u w → u = "n1" ∧ w = "g1" := by
    intro u w h
    have hE : ggEdges c1ex = [("n1", "g1")] := by decide
    rw [GGStep, hE] at h
    simpa [Prod.ext_iff] using h
  cases hv with
  | single hd =>
    obtain ⟨h1, h2⟩ := hstep v v hd
    rw [h1] at h2
    exact absurd h2 (by decide)
  | tail hprev hlast =>
    obtain ⟨hb, hv1⟩ := hstep _ _ hlast
    subst hv1
    subst hb
    cases hprev with
    | single hd2 => exact absurd (hstep _ _ hd2).1 (by decide)
    | tail _ hlast2 => exact absurd (hstep _ _ hlast2).2 (by decide)

theorem cycEx_cycle : HasGGCycle cycEx := by
  refine ⟨"ga", Relation.TransGen.head (b := "gb") ?_ (Relation.TransGen.single ?_)⟩
  · show ("ga", "gb") ∈ ggEdges cycEx
    decide
  · show ("gb", "ga") ∈ ggEdges cycEx
    decide

/-- Witness for C9 at the acyclic circuit `c1ex` and the cyclic circuit
`cycEx`. -/
theorem C9_topological_sort_soundness_witness :
    ((gateKeys c1ex).Nodup ∧ ¬ HasGGCycle c1ex
      ∧ ∃ order, topologicalSort c1ex = .ok order
          ∧ (∀ g ∈ gateKeys c1ex, g ∈ order)
          ∧ (∀ e ∈ ggEdges c1ex, order.indexOf e.1 < order.indexOf e.2))
    ∧ ((gateKeys cycEx).Nodup ∧ HasGGCycle cycEx
      ∧ topologicalSort cycEx = .error
          (.valueError "电路中存在环路，无法进行拓扑排序")) := by
  refine ⟨⟨by decide, c1ex_acyclic,
      C9_topological_sort_soundness.1 c1ex (by decide) c1ex_acyclic⟩,
    ⟨by decide, cycEx_cycle,
      C9_topological_sort_soundness.2 cycEx (by decide) cycEx_cycle⟩⟩

/-! ## C10 -/

theorem lookup_of_mem_nodup {α : Type} : ∀ {l : List (String × α)} {k : String} {v : α},
    (l.map Prod.fst).Nodup → (k, v) ∈ l → l.lookup k = some v
  | [], _, _, _, hmem => by simp at hmem
  | p :: rest, k, v, hnd, hmem => by
    rw [List.lookup_cons]
    rcases List.mem_cons.mp hmem with heq | hrest
    · rw [← heq]
      simp
    · have hk : k ≠ p.1 := by
        intro he
        have hmk : k ∈ rest.map Prod.fst := List.mem_map.mpr ⟨(k, v), hrest, rfl⟩
        rw [List.map_cons] at hnd
        exact (List.nodup_cons.mp hnd).1 (he ▸ hmk)
      have hbeq : (k == p.1) = false := beq_eq_false_iff_ne.mpr hk
      rw [hbeq]
      rw [List.map_cons] at hnd
      exact lookup_of_mem_nodup (List.nodup_cons.mp hnd).2 hrest

theorem mem_dictInsert {α : Type} {k key : String} {v val : α} {d : List (String × α)}
    (h : (k, v) ∈ dictInsert key val d) : k = key ∨ (k, v) ∈ d := by
  unfold dictInsert at h
  split at h
  · rw [List.mem_map] at h
    obtain ⟨p, hp, heq⟩ := h
    by_cases hpk : p.1 = key
    · rw [if_pos hpk] at heq
      injection heq with h1 _
      exact Or.inl h1.symm
    · rw [if_neg hpk] at heq
      exact Or.inr (heq ▸ hp)
  · rcases List.mem_append.mp h with h1 | h2
    · exact Or.inr h1
    · have h3 := List.mem_singleton.mp h2
      injection h3 with h1 _
      exact Or.inl h1


theorem gateEvalFold_error {c : Circuit} (hnd : (gateKeys c).Nodup)
    {gid : String} {g : LogicGate} {p : String}
    (hmemg : (gid, g) ∈ c.gates) (hp : p ∈ g.inputs) (hpg : isGateId c p = false) :
    ∀ (order : List String) (seed : List (String × Int)), gid ∈ order →
      (∀ k v, (k, v) ∈ seed → isGateId c k = true) →
      ∃ e, gateEvalFold c order seed = .error e := by
  intro order
  induction order with
  | nil =>
    intro seed hgo _
    exact absurd hgo (List.not_mem_nil gid)
  | cons x rest ih =>
    intro seed hgo hseed
    have hmissing : (seed.lookup p).isNone = true := by
      rcases hlk : seed.lookup p with _ | w
      · rfl
      · have := hseed p w (lookup_mem hlk)
        rw [hpg] at this
        exact absurd this Bool.false_ne_true
    by_cases hx : x = gid
    · subst hx
      unfold gateEvalFold
      rw [lookup_of_mem_nodup hnd hmemg]
      dsimp only
      rcases hfind : g.inputs.find? (fun i => (seed.lookup i).isNone) with _ | i
      · exfalso
        rw [List.find?_eq_none] at hfind
        have hc := hfind p hp
        exact hc hmissing
      · exact ⟨_, rfl⟩
    · have hgor : gid ∈ rest := by
        rcases List.mem_cons.mp hgo with h | h
        · exact absurd h.symm hx
        · exact h
      unfold gateEvalFold
      rcases hlk : c.gates.lookup x with _ | gate
      · exact ⟨_, rfl⟩
      · dsimp only
        rcases hfind : gate.inputs.find? (fun i => (seed.lookup i).isNone) with _ | i
        · rcases hout : gate.computeOutput
              (gate.inputs.map (fun i => (i, (seed.lookup i).getD 0))) with e | out
          · exact ⟨e, rfl⟩
          · have hseed' : ∀ k v, (k, v) ∈ dictInsert x out seed →
                isGateId c k = true := by
              intro k v hkv
              rcases mem_dictInsert hkv with hkx | hkv2
              · have hxk : x ∈ gateKeys c :=
                  List.mem_map.mpr ⟨(x, gate), lookup_mem hlk, rfl⟩
                rw [hkx]
                exact contains_iff.mpr hxk
              · exact hseed k v hkv2
            obtain ⟨e, he⟩ := ih (dictInsert x out seed) hgor hseed'
            exact ⟨e, he⟩
        · exact ⟨_, rfl⟩

/-- C10's counterexample circuit: gate `g0` is an AND with an *empty* input
list (which evaluates to 1), gate `g1` is an AND whose only input is `g0`. -/
def c10ex : Circuit :=
  ⟨"c10", [("g0", ⟨"g0", "AND", 1, [], "g0"⟩), ("g1", ⟨"g1", "AND", 1, ["g0"], "g1"⟩)],
   [], [("out1", ⟨"Y", "g1"⟩)], [⟨"g0", "g1", 0.1⟩]⟩

/-- The gate of C10's witness circuit. -/
def c10bGate : LogicGate := ⟨"g1", "AND", 1, ["a"], "g1"⟩

/-- C10's witness circuit: one AND gate reading the primary input `a`. -/
def c10b : Circuit :=
  ⟨"c10b", [("g1", c10bGate)], [("a", ⟨"A", 1⟩)],
   [("out1", ⟨"Y", "g1"⟩)], [⟨"a", "g1", 0.1⟩]⟩

/-- Counterexample to claim C10 as stated: `c10ex` contains a gate with a
nonempty input list, yet `compute_circuit({})` succeeds (the zero-input gate
`g0` computes 1 with no upstream values, after which `g1`'s input is
available), instead of raising an evaluation error. -/
theorem C10_counterexample_empty_mapping_succeeds :
    (c10ex.gates.any (fun p => !p.2.inputs.isEmpty)) = true
    ∧ computeCircuit c10ex (some []) = .ok [("g0", 1), ("g1", 1), ("out1", 1)] := by
  constructor
  · decide
  · with_unfolding_all rfl

/-- Claim C10, amended: `compute_circuit` distinguishes an absent assignment
from an explicitly empty one — calling it with no mapping behaves exactly as
if the stored initial values were passed, while an explicit mapping is used
as given; and for every circuit containing a gate one of whose input ports is
a primary-input id that is not also a gate id, `compute_circuit({})` raises an
evaluation error (the claim as stated — any gate with a nonempty input list —
is refuted by `C10_counterexample_empty_mapping_succeeds`). -/
theorem C10_absent_vs_empty_assignment :
    (∀ c : Circuit, computeCircuit c none = computeCircuit c (some (initialInputValues c)))
    ∧ (∀ c : Circuit, (gateKeys c).Nodup →
        ∀ gid g p, (gid, g) ∈ c.gates → p ∈ g.inputs →
          isInputId c p = true → isGateId c p = false →
          ∃ e, computeCircuit c (some []) = .error e) := by
  constructor
  · intro c
    have hfind : (initialInputValues c).find? (fun p => !(isInputId c p.1)) = none := by
      rw [List.find?_eq_none]
      intro x hx
      unfold initialInputValues at hx
      rw [List.mem_map] at hx
      obtain ⟨ip, hip, rfl⟩ := hx
      have : isInputId c ip.1 = true := by
        unfold isInputId
        rw [List.any_eq_true]
        exact ⟨ip, hip, by simp⟩
      simp [this]
    simp [computeCircuit, hfind]
  · intro c hnd gid g p hmemg hp _ hpg
    have hceq : computeCircuit c (some []) = (topologicalSort c >>= fun order =>
        gateEvalFold c order [] >>= fun res =>
          dictUpdate res <$> outputResolve c res) := rfl
    rcases hsort : topologicalSort c with err | order
    · refine ⟨err, ?_⟩
      rw [hceq, hsort]
      rfl
    · have hall := (topologicalSort_ok_spec hnd hsort).2.2
      have hgidk : gid ∈ gateKeys c := List.mem_map.mpr ⟨(gid, g), hmemg, rfl⟩
      obtain ⟨e, he⟩ := gateEvalFold_error hnd hmemg hp hpg order [] (hall gid hgidk)
        (fun k v hkv => absurd hkv (List.not_mem_nil _))
      refine ⟨e, ?_⟩
      rw [hceq, hsort]
      show (gateEvalFold c order [] >>= fun res =>
        dictUpdate res <$> outputResolve c res) = Except.error e
      rw [he]
      rfl

/-- Witness for C10's amended claim at the circuit `c10b`. -/
theorem C10_absent_vs_empty_assignment_witness :
    ((gateKeys c10b).Nodup ∧ ("g1", c10bGate) ∈ c10b.gates ∧ "a" ∈ c10bGate.inputs
      ∧ isInputId c10b "a" = true ∧ isGateId c10b "a" = false
      ∧ ∃ e, computeCircuit c10b (some []) = .error e)
    ∧ computeCircuit c10b none = computeCircuit c10b (some (initialInputValues c10b)) := by
  refine ⟨⟨by decide, by decide, by decide, by decide, by decide,
    C10_absent_vs_empty_assignment.2 c10b (by decide) "g1" c10bGate "a"
      (by decide) (by decide) (by decide) (by decide)⟩,
    C10_absent_vs_empty_assignment.1 c10b⟩

/-! ## C3 -/

theorem lookup_mapUpdate {α : Type} (key : String) (val : α) :
    ∀ (d : List (String × α)) (k : String),
      (d.map (fun p => if p.1 = key then (key, val) else p)).lookup k
        = if k = key then (if d.any (fun p => p.1 = key) then some val else none)
          else d.lookup k
  | [], k => by by_cases hk : k = key <;> simp [hk]
  | (a, b) :: rest, k => by
    rw [List.map_cons]
    by_cases hak : a = key
    · simp only [if_pos hak]
      by_cases hk : k = key
      · subst hk
        simp [List.lookup_cons, hak]
      · rw [List.lookup_cons, List.lookup_cons,
          beq_eq_false_iff_ne.mpr hk, beq_eq_false_iff_ne.mpr (fun h => hk (h.trans hak)),
          lookup_mapUpdate key val rest k]
        simp [hk]
    · simp only [if_neg hak]
      by_cases hka : k = a
      · rw [List.lookup_cons, List.lookup_cons, beq_iff_eq.mpr hka,
          if_neg (fun h => hak (hka.symm.trans h))]
      · rw [List.lookup_cons, List.lookup_cons, beq_eq_false_iff_ne.mpr hka,
          lookup_mapUpdate key val rest k]
        by_cases hk : k = key
        · rw [if_pos hk, if_pos hk]
          have : (((a, b) :: rest).any fun p => decide (p.1 = key))
              = (rest.any fun p => decide (p.1 = key)) := by
            rw [List.any_cons]
            simp [hak]
          rw [this]
        · rw [if_neg hk, if_neg hk]

theorem lookup_append_single {α : Type} (key : String) (val : α) :
    ∀ (d : List (String × α)) (k : String),
      (d ++ [(key, val)]).lookup k
        = match d.lookup k with
          | some v => some v
          | none => if k = key then some val else none
  | [], k => by
    by_cases hk : k = key
    · simp [List.lookup_cons, beq_iff_eq.mpr hk, hk]
    · simp [List.lookup_cons, beq_eq_false_iff_ne.mpr hk, hk]
  | (a, b) :: rest, k => by
    rw [List.cons_append, List.lookup_cons, List.lookup_cons]
    by_cases hka : k = a
    · rw [beq_iff_eq.mpr hka]
    · rw [beq_eq_false_iff_ne.mpr hka, lookup_append_single key val rest k]

theorem lookup_none_of_not_any {α : Type} {d : List (String × α)} {key : String}
    (h : ¬ d.any (fun p => p.1 = key) = true) : d.lookup key = none := by
  rcases hlk : d.lookup key with _ | v
  · rfl
  · exact absurd (List.any_eq_true.mpr ⟨(key, v), lookup_mem hlk, by simp⟩) h

theorem lookup_dictInsert {α : Type} (key : String) (val : α) (d : List (String × α))
    (k : String) :
    (dictInsert key val d).lookup k = if k = key then some val else d.lookup k := by
  unfold dictInsert
  by_cases hmem : d.any (fun p => p.1 = key)
  · rw [if_pos hmem, lookup_mapUpdate]
    by_cases hk : k = key <;> simp [hk, hmem]
  · rw [if_neg hmem, lookup_append_single]
    by_cases hk : k = key
    · subst hk
      rw [lookup_none_of_not_any hmem]
    · rcases hlk : d.lookup k with _ | v
      · simp [hk]
      · simp [hk]

theorem assignPorts_src {c : Circuit} {gid : String} {gate : LogicGate} :
    ∀ ps ∈ assignPorts c gid gate, ∃ cn ∈ c.connections, cn.frm = ps.2 ∧ cn.toId = gid := by
  unfold assignPorts
  suffices h : ∀ (l : List Connection), (∀ cn ∈ l, cn ∈ c.connections) →
      ∀ (acc : List (String × String)),
        (∀ ps ∈ acc, ∃ cn ∈ c.connections, cn.frm = ps.2 ∧ cn.toId = gid) →
        ∀ ps ∈ l.foldl (fun acc cn =>
          if cn.toId = gid then
            match gate.inputs.find? (fun port => !(acc.any (fun q => q.1 = port))) with
            | some port => acc ++ [(port, cn.frm)]
            | none => acc
          else acc) acc,
          ∃ cn ∈ c.connections, cn.frm = ps.2 ∧ cn.toId = gid by
    exact h c.connections (fun cn hcn => hcn) [] (fun ps hps => absurd hps (List.not_mem_nil ps))
  intro l
  induction l with
  | nil =>
    intro _ acc hacc ps hps
    exact hacc ps hps
  | cons cn rest ih =>
    intro hsub acc hacc ps hps
    rw [List.foldl_cons] at hps
    refine ih (fun x hx => hsub x (List.mem_cons_of_mem cn hx)) _ ?_ ps hps
    intro q hq
    by_cases hto : cn.toId = gid
    · rw [if_pos hto] at hq
      rcases hfind : gate.inputs.find? (fun port => !(acc.any (fun r => r.1 = port)))
          with _ | port
      · rw [hfind] at hq
        exact hacc q hq
      · rw [hfind] at hq
        rcases List.mem_append.mp hq with h1 | h2
        · exact hacc q h1
        · have := List.mem_singleton.mp h2
          subst this
          exact ⟨cn, hsub cn (List.mem_cons_self cn rest), rfl, hto⟩
    · rw [if_neg hto] at hq
      exact hacc q hq

/-- If no collected input is a negated variable, the negated-variable dict of
`_check_gate_for_hazard` stays empty. -/
theorem collectPolarPorts_snd_nil {gi : List (String × SymVal)}
    (h : ∀ pv ∈ gi, ∀ a b, pv.2 ≠ SymVal.negated a b) :
    (collectPolarPorts gi).2 = [] := by
  unfold collectPolarPorts
  suffices hgen : ∀ (l : List (String × SymVal)),
      (∀ pv ∈ l, ∀ a b, pv.2 ≠ SymVal.negated a b) →
      ∀ (acc : List (String × List String) × List (String × List String)),
      (l.foldl (fun acc p =>
        match p.2 with
        | .special vid _ => (appendPort acc.1 vid p.1, acc.2)
        | .negated vid _ => (acc.1, appendPort acc.2 vid p.1)
        | .const _ => acc) acc).2 = acc.2 by
    exact hgen gi h ([], [])
  intro l
  induction l with
  | nil => intro _ acc; rfl
  | cons p rest ih =>
    intro hl acc
    rw [List.foldl_cons]
    rcases hp : p.2 with v | ⟨vid, vn⟩ | ⟨vid, vn⟩
    · exact ih (fun x hx => hl x (List.mem_cons_of_mem p hx)) _
    · exact ih (fun x hx => hl x (List.mem_cons_of_mem p hx)) _
    · exact absurd hp (by simpa using hl p (List.mem_cons_self p rest) vid vn)

theorem checkGate_none_of_no_negated {gid : String} {gate : LogicGate}
    {gi : List (String × SymVal)}
    (h : ∀ pv ∈ gi, ∀ a b, pv.2 ≠ SymVal.negated a b) :
    checkGateForHazard gid gate gi = none := by
  unfold checkGateForHazard
  by_cases hlen : gate.inputs.length < 2
  · rw [if_pos hlen]
  · rw [if_neg hlen]
    have hsnd := collectPolarPorts_snd_nil h
    dsimp only
    rw [hsnd]
    have hfind : (collectPolarPorts gi).1.find?
        (fun sv => ([] : List (String × List String)).any (fun nv => nv.1 = sv.1)) = none := by
      rw [List.find?_eq_none]
      intro x _
      simp
    rw [hfind]

theorem indexOf_lt_of_split {l l1 l2 : List String} {x s : String} (hnd : l.Nodup)
    (hsplit : l = l1 ++ x :: l2) (hs : s ∈ l2) : l.indexOf x < l.indexOf s := by
  subst hsplit
  rw [List.nodup_append] at hnd
  have hxl1 : x ∉ l1 := fun hx => hnd.2.2 hx (List.mem_cons_self x l2)
  have hsl1 : s ∉ l1 := fun hx => hnd.2.2 hx (List.mem_cons_of_mem x hs)
  have hsx : s ≠ x := by
    intro he
    exact (List.nodup_cons.mp hnd.2.1).1 (he ▸ hs)
  rw [List.indexOf_append_of_not_mem hxl1, List.indexOf_append_of_not_mem hsl1,
    List.indexOf_cons_self, List.indexOf_cons_ne _ (Ne.symm hsx)]
  omega

/-- The values read by `_collect_gate_inputs` are the state's values at the
connection sources (default 0). -/
theorem collectGateInputs_values {c : Circuit} {gid : String} {gate : LogicGate}
    {state : List (String × SymVal)} :
    ∀ pv ∈ collectGateInputs c gid gate state,
      pv.2 = SymVal.const 0 ∨ ∃ s, (∃ cn ∈ c.connections, cn.frm = s ∧ cn.toId = gid)
        ∧ state.lookup s = some pv.2 := by
  intro pv hpv
  unfold collectGateInputs at hpv
  rw [List.mem_map] at hpv
  obtain ⟨ps, hps, rfl⟩ := hpv
  rcases hlk : state.lookup ps.2 with _ | v
  · exact Or.inl rfl
  · exact Or.inr ⟨ps.2, assignPorts_src ps hps, by rw [hlk]⟩

/-- Core of C3: along the reverse-topological traversal, a gate's collected
inputs can never contain a negated variable — any gate source feeding the
current gate is strictly earlier in the forward order, hence strictly later
in the reversed order, hence not yet written — so no hazard is ever recorded
by the symbolic pass. -/
theorem analyzeLoop_no_hazard {c : Circuit} (hnd : (gateKeys c).Nodup)
    {order : List String} (hok : topologicalSort c = .ok order)
    {initial : List (String × SymVal)}
    (hinit : ∀ k v, initial.lookup k = some v → ∀ a b, v ≠ SymVal.negated a b) :
    ∀ (suf pre : List String) (state : List (String × SymVal)) (hz : List HazardGateRec),
      order.reverse = pre ++ suf →
      (∀ k v, state.lookup k = some v → k ∈ pre ∨ initial.lookup k = some v) →
      ∀ res, analyzeLoop c suf state hz = .ok res → res.2 = hz
  | [], pre, state, hz, hsplit, hstate, res, hres => by
    unfold analyzeLoop at hres
    injection hres with h
    rw [← h]
  | gid :: rest, pre, state, hz, hsplit, hstate, res, hres => by
    have hpost := topologicalSort_ok_spec hnd hok
    have hordnd : order.Nodup := hpost.1.1
    have hsufr : gid ∈ order := by
      have hm : gid ∈ order.reverse := by
        rw [hsplit]
        exact List.mem_append.mpr (Or.inr (List.mem_cons_self _ _))
      simpa using hm
    have hgidkeys : gid ∈ gateKeys c := hpost.1.2.1 gid hsufr
    have hpre_keys : ∀ s ∈ pre, s ∈ gateKeys c := by
      intro s hs
      have hm : s ∈ order.reverse := by
        rw [hsplit]
        exact List.mem_append.mpr (Or.inl hs)
      exact hpost.1.2.1 s (by simpa using hm)
    have horder_split : order = rest.reverse ++ gid :: pre.reverse := by
      have h2 := congrArg List.reverse hsplit
      rw [List.reverse_reverse] at h2
      rw [h2]
      simp
    have hsrc_not_pre : ∀ s, (∃ cn ∈ c.connections, cn.frm = s ∧ cn.toId = gid) →
        s ∈ gateKeys c → s ∉ pre := by
      rintro s ⟨cn, hcn, hfrm, hto⟩ hsk hspre
      have hedge : (s, gid) ∈ ggEdges c := by
        unfold ggEdges
        rw [List.mem_map]
        refine ⟨cn, List.mem_filter.mpr ⟨hcn, ?_⟩, by rw [hfrm, hto]⟩
        rw [Bool.and_eq_true]
        constructor
        · rw [hfrm]
          exact contains_iff.mpr hsk
        · rw [hto]
          exact contains_iff.mpr hgidkeys
      have hlt := (hpost.1.2.2.1 (s, gid) hedge hsufr).2
      dsimp only at hlt
      have hgt : order.indexOf gid < order.indexOf s :=
        indexOf_lt_of_split hordnd horder_split (by simpa using hspre)
      omega
    unfold analyzeLoop at hres
    rcases hlk : c.gates.lookup gid with _ | gate
    · rw [hlk] at hres
      exact absurd hres (by simp)
    · rw [hlk] at hres
      dsimp only at hres
      have hvals : ∀ pv ∈ collectGateInputs c gid gate state,
          ∀ a b, pv.2 ≠ SymVal.negated a b := by
        intro pv hpv a b
        rcases collectGateInputs_values pv hpv with hc0 | ⟨s, hsrc, hlks⟩
        · rw [hc0]
          intro hco
          cases hco
        · rcases hstate s pv.2 hlks with hpre | hini
          · rcases hlks2 : state.lookup s with _ | v
            · rw [hlks2] at hlks
              cases hlks
            · obtain ⟨cn, hcn, hfrm, hto⟩ := hsrc
              by_cases hskey : s ∈ gateKeys c
              · exact absurd hpre (hsrc_not_pre s ⟨cn, hcn, hfrm, hto⟩ hskey)
              · exact absurd (hpre_keys s hpre) hskey
          · exact hinit s pv.2 hini a b
      have hcheck : checkGateForHazard gid gate (collectGateInputs c gid gate state) = none :=
        checkGate_none_of_no_negated hvals
      rw [hcheck] at hres
      have hstate' : ∀ k v,
          (dictInsert gid (computeSpecialGateOutput gate
            (collectGateInputs c gid gate state)) state).lookup k = some v →
          k ∈ pre ++ [gid] ∨ initial.lookup k = some v := by
        intro k v hkv
        rw [lookup_dictInsert] at hkv
        by_cases hk : k = gid
        · exact Or.inl (List.mem_append.mpr (Or.inr (by rw [hk]; exact List.mem_singleton_self gid)))
        · rw [if_neg hk] at hkv
          rcases hstate k v hkv with h1 | h2
          · exact Or.inl (List.mem_append.mpr (Or.inl h1))
          · exact Or.inr h2
      have hsplit' : order.reverse = (pre ++ [gid]) ++ rest := by
        rw [hsplit]
        simp
      exact analyzeLoop_no_hazard hnd hok hinit rest (pre ++ [gid]) _ hz hsplit' hstate' res hres

theorem initial_no_negated (varId varName : String) (other : List (String × Int)) :
    ∀ k v, (dictInsert varId (SymVal.special varId varName)
        (other.map (fun p => (p.1, SymVal.const p.2)))).lookup k = some v →
      ∀ a b, v ≠ SymVal.negated a b := by
  intro k v hkv a b
  rw [lookup_dictInsert] at hkv
  by_cases hk : k = varId
  · rw [if_pos hk] at hkv
    injection hkv with h
    rw [← h]
    intro hco
    cases hco
  · rw [if_neg hk] at hkv
    have hm := lookup_mem hkv
    rw [List.mem_map] at hm
    obtain ⟨p, _, hp⟩ := hm
    injection hp with _ h2
    rw [← h2]
    intro hco
    cases hco

theorem analyze_ok_none {c : Circuit} (hnd : (gateKeys c).Nodup)
    (varId varName : String) (other : List (String × Int)) :
    ∀ r, analyzeHazardWithSpecialVariable c varId varName other = .ok r → r = none := by
  intro r hr
  unfold analyzeHazardWithSpecialVariable at hr
  dsimp only at hr
  rcases hsort : topologicalSort c with e2 | order
  · rw [show reverseTopologicalSort c = .error e2 by
      unfold reverseTopologicalSort; rw [hsort]] at hr
    cases hr
  · rw [show reverseTopologicalSort c = .ok order.reverse by
      unfold reverseTopologicalSort; rw [hsort]] at hr
    dsimp only at hr
    rcases hloop : analyzeLoop c order.reverse
        (dictInsert varId (SymVal.special varId varName)
          (other.map (fun p => (p.1, SymVal.const p.2)))) [] with e3 | res
    · rw [hloop] at hr
      cases hr
    · rw [hloop] at hr
      dsimp only at hr
      have hres2 : res.2 = [] :=
        analyzeLoop_no_hazard hnd hsort (initial_no_negated varId varName other)
          order.reverse [] _ [] (by simp)
          (fun k v hkv => Or.inr hkv) res hloop
      rw [hres2] at hr
      injection hr with h
      exact h.symm

theorem analyzeCombos_ok {c : Circuit} (hnd : (gateKeys c).Nodup) (vid vname : String) :
    ∀ (combos : List (List (String × Int))) (acc h : List HazardInfo),
      analyzeCombos c vid vname combos acc = .ok h → h = acc
  | [], acc, h, hh => by
    unfold analyzeCombos at hh
    injection hh with h2
    exact h2.symm
  | combo :: rest, acc, h, hh => by
    unfold analyzeCombos at hh
    rcases han : analyzeHazardWithSpecialVariable c vid vname combo with e | r
    · rw [han] at hh
      cases hh
    · have hr := analyze_ok_none hnd vid vname combo r han
      subst hr
      rw [han] at hh
      exact analyzeCombos_ok hnd vid vname rest acc h hh

theorem analyzeVars_ok {c : Circuit} (hnd : (gateKeys c).Nodup) (inputIds : List String) :
    ∀ (vars : List VarNegInfo) (acc h : List HazardInfo),
      analyzeVars c inputIds vars acc = .ok h → h = acc
  | [], acc, h, hh => by
    unfold analyzeVars at hh
    injection hh with h2
    exact h2.symm
  | vi :: rest, acc, h, hh => by
    unfold analyzeVars at hh
    rcases hin : analyzeCombos c vi.id vi.var_name
        (generateAllInputCombinations (inputIds.filter (fun i => i ≠ vi.id))) acc
        with e | acc2
    · rw [hin] at hh
      cases hh
    · rw [hin] at hh
      have hacc := analyzeCombos_ok hnd vi.id vi.var_name _ acc acc2 hin
      rw [hacc] at hh
      exact analyzeVars_ok hnd inputIds rest acc h hh

theorem byExpression_ok_nil {c : Circuit} (hnd : (gateKeys c).Nodup) :
    ∀ h, detectHazardsByExpression c = .ok h → h = [] := by
  intro h hh
  unfold detectHazardsByExpression at hh
  by_cases hv : (findVariablesWithNegation c).isEmpty
  · rw [if_pos hv] at hh
    injection hh with h2
    exact h2.symm
  · rw [if_neg hv] at hh
    exact analyzeVars_ok hnd (c.inputs.map Prod.fst) (findVariablesWithNegation c) [] h hh

/-- Claim C3: for every circuit (with the gate-dict key invariant) and every
assignment of the other inputs, the exhaustive symbolic pass
`_analyze_hazard_with_special_variable` reports no hazard whenever it returns
at all — in reverse topological order every gate-sourced input reads the
default constant 0, so a symbolic literal never meets its negation —
and consequently every hazard `detect_hazards` reports comes from the
direct-classification fallback `_check_direct_hazards` (or the list is empty
when the symbolic route raised). -/
theorem C3_symbolic_route_reports_nothing :
    ∀ c : Circuit, (gateKeys c).Nodup →
      (∀ varId varName other r,
        analyzeHazardWithSpecialVariable c varId varName other = .ok r → r = none)
      ∧ ((detectHazards c).hazards = [] ∨ (detectHazards c).hazards = checkDirectHazards c) := by
  intro c hnd
  refine ⟨fun varId varName other r hr => analyze_ok_none hnd varId varName other r hr, ?_⟩
  unfold detectHazards
  dsimp only
  rcases hsub : hazardsSub c with e | hz
  · exact Or.inl rfl
  · unfold hazardsSub at hsub
    rcases hbe : detectHazardsByExpression c with e2 | h2
    · rw [hbe] at hsub
      cases hsub
    · rw [hbe] at hsub
      have h2nil := byExpression_ok_nil hnd h2 hbe
      subst h2nil
      dsimp only at hsub
      rw [if_pos (show ([] : List HazardInfo).isEmpty = true from rfl)] at hsub
      injection hsub with h3
      exact Or.inr h3.symm

/-- Witness for C3 at the circuit `c1ex`. -/
theorem C3_symbolic_route_reports_nothing_witness :
    (gateKeys c1ex).Nodup
    ∧ (∀ r, analyzeHazardWithSpecialVariable c1ex "a" "A" [] = .ok r → r = none)
    ∧ ((detectHazards c1ex).hazards = [] ∨ (detectHazards c1ex).hazards = checkDirectHazards c1ex) := by
  refine ⟨by decide, ?_, (C3_symbolic_route_reports_nothing c1ex (by decide)).2⟩
  intro r hr
  exact (C3_symbolic_route_reports_nothing c1ex (by decide)).1 "a" "A" [] r hr

/-- C5's demonstration circuit: input `a` feeds a NOT gate (so the symbolic
route is attempted) and the AND gates `g1`, `g2` form a cycle (so that route
raises inside the topological sort), while the race sweep still has findings. -/
def c5ex : Circuit :=
  ⟨"c5", [("n1", ⟨"n1", "NOT", 0, ["a"], "n1"⟩), ("g1", ⟨"g1", "AND", 0, ["n1", "g2"], "g1"⟩),
    ("g2", ⟨"g2", "AND", 0, ["g1", "a"], "g2"⟩)],
   [("a", ⟨"A", 0⟩)], [("out1", ⟨"Y", "g1"⟩)],
   [⟨"a", "n1", 0.1⟩, ⟨"n1", "g1", 0.1⟩, ⟨"g2", "g1", 0.1⟩, ⟨"g1", "g2", 0.1⟩, ⟨"a", "g2", 0.1⟩]⟩

/-- Claim C5: `detect_hazards` is a total function — on every circuit it
returns a record with both a `race_conditions` list and a `hazards` list; the
race sweep's findings are always present, and the hazard sweep's result is
either its successful value or the empty list when that sub-check raised.
Concretely on `c5ex` the hazard sub-check does raise, yet the returned record
still carries the race sweep's nonempty findings. -/
theorem C5_detection_failures_degrade_locally :
    (∀ c : Circuit,
      (detectHazards c).race_conditions = detectRaceConditions c
      ∧ (hazardsSub c = .ok (detectHazards c).hazards
         ∨ ((detectHazards c).hazards = [] ∧ ∃ e, hazardsSub c = .error e)))
    ∧ (∃ e, hazardsSub c5ex = .error e)
    ∧ (detectHazards c5ex).race_conditions ≠ [] := by
  refine ⟨?_, ?_, ?_⟩
  · intro c
    refine ⟨rfl, ?_⟩
    rcases h : hazardsSub c with e | hz
    · refine Or.inr ⟨?_, e, rfl⟩
      unfold detectHazards
      dsimp only
      rw [h]
    · refine Or.inl ?_
      have hh : (detectHazards c).hazards = hz := by
        unfold detectHazards
        dsimp only
        rw [h]
      rw [hh]
  · exact ⟨.valueError "电路中存在环路，无法进行拓扑排序", by with_unfolding_all rfl⟩
  · with_unfolding_all decide

theorem addGate_inputs (c : Circuit) (g : LogicGate) : (addGate c g).inputs = c.inputs := rfl

theorem addConnection_inputs (c : Circuit) (f t : String) (d : ℚ) :
    (addConnection c f t d).inputs = c.inputs := rfl

theorem addOutput_inputs (c : Circuit) (o n s : String) :
    (addOutput c o n s).inputs = c.inputs := rfl

theorem createGate_inputs {st : ParserState} {op : String} {st' : ParserState}
    (h : createGate st op = .ok st') : st'.circuit.inputs = st.circuit.inputs := by
  unfold createGate at h
  dsimp only at h
  by_cases hop : op = "!"
  · rw [if_pos hop] at h
    rcases hs : st.stack with _ | ⟨i, rest⟩ <;> rw [hs] at h
    · cases h
    · injection h with h2
      rw [← h2]
      rfl
  · rw [if_neg hop] at h
    rcases hs : st.stack with _ | ⟨i2, tl⟩ <;> rw [hs] at h
    · cases h
    · rcases tl with _ | ⟨i1, rest⟩
      · cases h
      · injection h with h2
        rw [← h2]
        rfl

theorem popHigherOps_inputs :
    ∀ (ops : List String) (st : ParserState) (tok : String) (st' : ParserState)
      (ops' : List String), popHigherOps st tok ops = .ok (st', ops') →
      st'.circuit.inputs = st.circuit.inputs
  | [], st, tok, st', ops', h => by
    unfold popHigherOps at h
    injection h with h2
    injection h2 with ha hb
    rw [← ha]
  | op :: rest, st, tok, st', ops', h => by
    unfold popHigherOps at h
    split at h
    · rcases hcg : createGate st op with e | st1 <;> rw [hcg] at h
      · cases h
      · exact (popHigherOps_inputs rest st1 tok st' ops' h).trans (createGate_inputs hcg)
    · injection h with h2
      injection h2 with ha hb
      rw [← ha]

theorem popUntilParen_inputs :
    ∀ (ops : List String) (st st' : ParserState) (ops' : List String),
      popUntilParen st ops = .ok (st', ops') → st'.circuit.inputs = st.circuit.inputs
  | [], st, st', ops', h => by
    unfold popUntilParen at h
    injection h with h2
    injection h2 with ha hb
    rw [← ha]
  | op :: rest, st, st', ops', h => by
    unfold popUntilParen at h
    split at h
    · rcases hcg : createGate st op with e | st1 <;> rw [hcg] at h
      · cases h
      · exact (popUntilParen_inputs rest st1 st' ops' h).trans (createGate_inputs hcg)
    · injection h with h2
      injection h2 with ha hb
      rw [← ha]

theorem popAllOps_inputs :
    ∀ (ops : List String) (st st' : ParserState),
      popAllOps st ops = .ok st' → st'.circuit.inputs = st.circuit.inputs
  | [], st, st', h => by
    unfold popAllOps at h
    injection h with h2
    rw [← h2]
  | op :: rest, st, st', h => by
    unfold popAllOps at h
    rcases hcg : createGate st op with e | st1 <;> rw [hcg] at h
    · cases h
    · exact (popAllOps_inputs rest st1 st' h).trans (createGate_inputs hcg)

theorem buildGatesLoop_inputs :
    ∀ (ts : List String) (st : ParserState) (ops : List String) (st' : ParserState)
      (ops' : List String), buildGatesLoop st ops ts = .ok (st', ops') →
      st'.circuit.inputs = st.circuit.inputs
  | [], st, ops, st', ops', h => by
    unfold buildGatesLoop at h
    injection h with h2
    injection h2 with ha hb
    rw [← ha]
  | tok :: ts, st, ops, st', ops', h => by
    unfold buildGatesLoop at h
    split at h
    · rcases hph : popHigherOps st tok ops with e | ⟨st1, ops1⟩ <;> rw [hph] at h
      · cases h
      · exact (buildGatesLoop_inputs ts st1 (tok :: ops1) st' ops' h).trans
          (popHigherOps_inputs ops st tok st1 ops1 hph)
    · split at h
      · exact buildGatesLoop_inputs ts st (tok :: ops) st' ops' h
      · split at h
        · exact buildGatesLoop_inputs ts st (tok :: ops) st' ops' h
        · split at h
          · rcases hpp : popUntilParen st ops with e | ⟨st1, ops1⟩ <;> rw [hpp] at h
            · cases h
            · exact (buildGatesLoop_inputs ts st1 _ st' ops' h).trans
                (popUntilParen_inputs ops st st1 ops1 hpp)
          · exact buildGatesLoop_inputs ts { st with stack := tok.toLower :: st.stack }
              ops st' ops' h

theorem buildGates_inputs {c : Circuit} {tokens : List String} {top : String} {c2 : Circuit}
    (h : buildGates c tokens = .ok (top, c2)) : c2.inputs = c.inputs := by
  unfold buildGates at h
  rcases hbl : buildGatesLoop ⟨0, c, []⟩ [] tokens with e | ⟨st, ops⟩ <;> rw [hbl] at h
  · cases h
  · dsimp only at h
    rcases hpa : popAllOps st ops with e | stF <;> rw [hpa] at h
    · cases h
    · dsimp only at h
      rcases hs : stF.stack with _ | ⟨t2, rest⟩ <;> rw [hs] at h
      · cases h
      · injection h with h2
        injection h2 with ha hb
        rw [← hb]
        exact (popAllOps_inputs ops st stF hpa).trans
          (buildGatesLoop_inputs tokens ⟨0, c, []⟩ [] st ops hbl)

theorem foldl_addInput :
    ∀ (vs : List String) (c : Circuit),
      (vs.map (fun v => v.toLower)).Nodup →
      (∀ v ∈ vs, ¬ c.inputs.any (fun p => p.1 = v.toLower)) →
      (vs.foldl (fun c v => addInput c v.toLower v 0) c).inputs
        = c.inputs ++ vs.map (fun v => (v.toLower, (⟨v, 0⟩ : InputInfo)))
  | [], c, hnd, hfree => by simp
  | v :: rest, c, hnd, hfree => by
    rw [List.foldl_cons]
    have hv : ¬ c.inputs.any (fun p => p.1 = v.toLower) := hfree v (List.mem_cons_self v rest)
    have hAdd : (addInput c v.toLower v 0).inputs
        = c.inputs ++ [(v.toLower, (⟨v, 0⟩ : InputInfo))] := by
      unfold addInput dictInsert
      dsimp only
      rw [if_neg hv]
    rw [List.map_cons] at hnd
    rcases List.nodup_cons.mp hnd with ⟨hvl, hnd'⟩
    have hfree' : ∀ u ∈ rest,
        ¬ (addInput c v.toLower v 0).inputs.any (fun p => p.1 = u.toLower) := by
      intro u hu hany
      rw [hAdd, List.any_append] at hany
      rcases (Bool.or_eq_true _ _).mp hany with h1 | h2
      · exact hfree u (List.mem_cons_of_mem v hu) h1
      · have hvu : v.toLower = u.toLower := by simpa using h2
        exact hvl (by rw [hvu]; exact List.mem_map_of_mem (fun s => s.toLower) hu)
    rw [foldl_addInput rest (addInput c v.toLower v 0) hnd' hfree', hAdd]
    simp

/-- Claim C7 (amended): for every successfully parsed expression (whose
distinct operand tokens stay distinct after lowercasing, which is always the
case since tokens are uppercased first), the registered inputs are exactly one
per distinct alphabetic token of the uppercased expression, listed in
ascending *sorted* order of the uppercased tokens — not first-seen order —
with id the lowercased token, display name the *uppercased* token — not the
operand as written — and initial value 0. -/
theorem C7_inputs_one_per_operand_sorted_uppercased :
    ∀ (e : String) (c : Circuit), parse e = .ok c →
      ((extractInputs (tokenize e)).map (fun v => v.toLower)).Nodup →
      c.inputs = (extractInputs (tokenize e)).map
        (fun v => (v.toLower, (⟨v, 0⟩ : InputInfo))) := by
  intro e c hp hnd
  unfold parse at hp
  by_cases he : e = ""
  · rw [if_pos he] at hp
    cases hp
  · rw [if_neg he] at hp
    dsimp only at hp
    rcases hbg : buildGates
        ((extractInputs (tokenize e)).foldl (fun c v => addInput c v.toLower v 0)
          ⟨"parsed_circuit", [], [], [], []⟩) (tokenize e) with e2 | ⟨outputId, c2⟩ <;>
      rw [hbg] at hp
    · cases hp
    · injection hp with h2
      rw [← h2, addOutput_inputs, buildGates_inputs hbg,
        foldl_addInput _ _ hnd (fun v _ => by simp)]
      simp

/-- C7's counterexample: `parse "b AND a"` registers its inputs sorted by the
uppercased token with uppercased display names — the id order is
`["a", "b"]`, not the first-seen `["b", "a"]`, and the display names are
`["A", "B"]`, not the operands `b`, `a` as written. -/
theorem C7_counterexample_parse_b_and_a :
    (parse "b AND a").map Circuit.inputs
      = .ok [("a", (⟨"A", 0⟩ : InputInfo)), ("b", (⟨"B", 0⟩ : InputInfo))]
    ∧ (parse "b AND a").map (fun c => c.inputs.map Prod.fst) ≠ .ok ["b", "a"]
    ∧ (parse "b AND a").map (fun c => c.inputs.map (fun p => p.2.name)) ≠ .ok ["b", "a"] := by
  refine ⟨?_, ?_, ?_⟩ <;> with_unfolding_all decide

/-- The circuit `parse "b AND a"` produces. -/
def c7parsed : Circuit :=
  match parse "b AND a" with
  | .ok c => c
  | .error _ => ⟨"", [], [], [], []⟩

/-- Witness for the amended C7 theorem at the expression `"b AND a"`. -/
theorem C7_inputs_one_per_operand_sorted_uppercased_witness :
    parse "b AND a" = .ok c7parsed
    ∧ c7parsed.inputs = (extractInputs (tokenize "b AND a")).map
        (fun v => (v.toLower, (⟨v, 0⟩ : InputInfo))) := by
  have hp : parse "b AND a" = .ok c7parsed := by with_unfolding_all rfl
  exact ⟨hp, C7_inputs_one_per_operand_sorted_uppercased "b AND a" c7parsed hp
    (by with_unfolding_all decide)⟩

theorem mem_keys_dictInsert {α : Type} (k key : String) (val : α) (d : List (String × α)) :
    k ∈ (dictInsert key val d).map Prod.fst ↔ k = key ∨ k ∈ d.map Prod.fst := by
  unfold dictInsert
  by_cases hd : d.any (fun p => p.1 = key)
  · rw [if_pos hd]
    have hkeys : (d.map (fun p => if p.1 = key then (key, val) else p)).map Prod.fst
        = d.map Prod.fst := by
      rw [List.map_map]
      apply List.map_congr_left
      intro q hq
      by_cases hq1 : q.1 = key
      · simp [hq1]
      · simp [hq1]
    rw [hkeys]
    constructor
    · exact Or.inr
    · rintro (rfl | hk)
      · rcases List.any_eq_true.mp hd with ⟨q, hq, hq1⟩
        have hqk : q.1 = k := by simpa using hq1
        exact hqk ▸ List.mem_map_of_mem Prod.fst hq
      · exact hk
  · rw [if_neg hd, List.map_append]
    simp [or_comm]

theorem mem_keys_appendPort (k vid port : String) (d : List (String × List String)) :
    k ∈ (appendPort d vid port).map Prod.fst ↔ k = vid ∨ k ∈ d.map Prod.fst := by
  unfold appendPort
  by_cases hd : d.any (fun q => q.1 = vid)
  · rw [if_pos hd]
    have hkeys : (d.map (fun q => if q.1 = vid then (q.1, q.2 ++ [port]) else q)).map Prod.fst
        = d.map Prod.fst := by
      rw [List.map_map]
      apply List.map_congr_left
      intro q hq
      by_cases hq1 : q.1 = vid
      · simp [hq1]
      · simp [hq1]
    rw [hkeys]
    constructor
    · exact Or.inr
    · rintro (rfl | hk)
      · rcases List.any_eq_true.mp hd with ⟨q, hq, hq1⟩
        have hqk : q.1 = k := by simpa using hq1
        exact hqk ▸ List.mem_map_of_mem Prod.fst hq
      · exact hk
  · rw [if_neg hd, List.map_append]
    simp [or_comm]

theorem two_mem_two_le_length :
    ∀ (l : List String) (a b : String), a ∈ l → b ∈ l → a ≠ b → 2 ≤ l.length
  | [], a, b, ha, _, _ => by simp at ha
  | x :: xs, a, b, ha, hb, hab => by
    rcases List.mem_cons.mp ha with rfl | ha'
    · rcases List.mem_cons.mp hb with rfl | hb'
      · exact absurd rfl hab
      · have h1 := List.length_pos.mpr (List.ne_nil_of_mem hb')
        simp only [List.length_cons]
        omega
    · have h1 := List.length_pos.mpr (List.ne_nil_of_mem ha')
      simp only [List.length_cons]
      omega

theorem exists_special_cons (qp : String) (x : SymVal) (rest : List (String × SymVal))
    (vid : String) :
    (∃ p vn, (p, SymVal.special vid vn) ∈ (qp, x) :: rest)
    ↔ (∃ vn, x = SymVal.special vid vn) ∨ (∃ p vn, (p, SymVal.special vid vn) ∈ rest) := by
  constructor
  · rintro ⟨p, vn, hp⟩
    rcases List.mem_cons.mp hp with heq | hmem
    · exact Or.inl ⟨vn, (congrArg Prod.snd heq).symm⟩
    · exact Or.inr ⟨p, vn, hmem⟩
  · rintro (⟨vn, hx⟩ | ⟨p, vn, hp⟩)
    · exact ⟨qp, vn, by rw [hx]; exact List.mem_cons_self _ _⟩
    · exact ⟨p, vn, List.mem_cons_of_mem _ hp⟩

theorem exists_negated_cons (qp : String) (x : SymVal) (rest : List (String × SymVal))
    (vid : String) :
    (∃ p vn, (p, SymVal.negated vid vn) ∈ (qp, x) :: rest)
    ↔ (∃ vn, x = SymVal.negated vid vn) ∨ (∃ p vn, (p, SymVal.negated vid vn) ∈ rest) := by
  constructor
  · rintro ⟨p, vn, hp⟩
    rcases List.mem_cons.mp hp with heq | hmem
    · exact Or.inl ⟨vn, (congrArg Prod.snd heq).symm⟩
    · exact Or.inr ⟨p, vn, hmem⟩
  · rintro (⟨vn, hx⟩ | ⟨p, vn, hp⟩)
    · exact ⟨qp, vn, by rw [hx]; exact List.mem_cons_self _ _⟩
    · exact ⟨p, vn, List.mem_cons_of_mem _ hp⟩

theorem collectPolarPorts_keys :
    ∀ (gi : List (String × SymVal))
      (acc : List (String × List String) × List (String × List String)) (vid : String),
      (vid ∈ (gi.foldl (fun acc p =>
          match p.2 with
          | .special v _ => (appendPort acc.1 v p.1, acc.2)
          | .negated v _ => (acc.1, appendPort acc.2 v p.1)
          | .const _ => acc) acc).1.map Prod.fst
        ↔ vid ∈ acc.1.map Prod.fst ∨ ∃ p vn, (p, SymVal.special vid vn) ∈ gi)
      ∧ (vid ∈ (gi.foldl (fun acc p =>
          match p.2 with
          | .special v _ => (appendPort acc.1 v p.1, acc.2)
          | .negated v _ => (acc.1, appendPort acc.2 v p.1)
          | .const _ => acc) acc).2.map Prod.fst
        ↔ vid ∈ acc.2.map Prod.fst ∨ ∃ p vn, (p, SymVal.negated vid vn) ∈ gi)
  | [], acc, vid => by simp
  | (qp, qval) :: rest, acc, vid => by
    rw [List.foldl_cons]
    rcases hq : qval with v | ⟨sv, sn⟩ | ⟨nv, nn⟩
    · dsimp only
      rw [exists_special_cons, exists_negated_cons]
      have ih := collectPolarPorts_keys rest acc vid
      rw [ih.1, ih.2]
      constructor
      · constructor
        · rintro (h1 | h2)
          · exact Or.inl h1
          · exact Or.inr (Or.inr h2)
        · rintro (h1 | (⟨vn, hv⟩ | h2))
          · exact Or.inl h1
          · cases hv
          · exact Or.inr h2
      · constructor
        · rintro (h1 | h2)
          · exact Or.inl h1
          · exact Or.inr (Or.inr h2)
        · rintro (h1 | (⟨vn, hv⟩ | h2))
          · exact Or.inl h1
          · cases hv
          · exact Or.inr h2
    · dsimp only
      rw [exists_special_cons, exists_negated_cons]
      have ih := collectPolarPorts_keys rest (appendPort acc.1 sv qp, acc.2) vid
      rw [ih.1, ih.2]
      dsimp only
      rw [mem_keys_appendPort]
      constructor
      · constructor
        · rintro ((rfl | h1) | h2)
          · exact Or.inr (Or.inl ⟨sn, rfl⟩)
          · exact Or.inl h1
          · exact Or.inr (Or.inr h2)
        · rintro (h1 | (⟨vn, hv⟩ | h2))
          · exact Or.inl (Or.inr h1)
          · injection hv with h3 h4
            exact Or.inl (Or.inl h3.symm)
          · exact Or.inr h2
      · constructor
        · rintro (h1 | h2)
          · exact Or.inl h1
          · exact Or.inr (Or.inr h2)
        · rintro (h1 | (⟨vn, hv⟩ | h2))
          · exact Or.inl h1
          · cases hv
          · exact Or.inr h2
    · dsimp only
      rw [exists_special_cons, exists_negated_cons]
      have ih := collectPolarPorts_keys rest (acc.1, appendPort acc.2 nv qp) vid
      rw [ih.1, ih.2]
      dsimp only
      rw [mem_keys_appendPort]
      constructor
      · constructor
        · rintro (h1 | h2)
          · exact Or.inl h1
          · exact Or.inr (Or.inr h2)
        · rintro (h1 | (⟨vn, hv⟩ | h2))
          · exact Or.inl h1
          · cases hv
          · exact Or.inr h2
      · constructor
        · rintro ((rfl | h1) | h2)
          · exact Or.inr (Or.inl ⟨nn, rfl⟩)
          · exact Or.inl h1
          · exact Or.inr (Or.inr h2)
        · rintro (h1 | (⟨vn, hv⟩ | h2))
          · exact Or.inl (Or.inr h1)
          · injection hv with h3 h4
            exact Or.inl (Or.inl h3.symm)
          · exact Or.inr h2

theorem exists_mem_cons_sym {α : Type} (x : α) (l : List α) (Q : α → Prop) :
    (∃ p ∈ x :: l, Q p) ↔ Q x ∨ ∃ p ∈ l, Q p := by
  constructor
  · rintro ⟨p, hp, hQ⟩
    rcases List.mem_cons.mp hp with rfl | hm
    · exact Or.inl hQ
    · exact Or.inr ⟨p, hm, hQ⟩
  · rintro (hQ | ⟨p, hm, hQ⟩)
    · exact ⟨x, List.mem_cons_self x l, hQ⟩
    · exact ⟨p, List.mem_cons_of_mem x hm, hQ⟩

theorem collectPolarVals_keys :
    ∀ (ports : List String) (gi : List (String × SymVal))
      (acc : List (String × SymVal) × List (String × SymVal)) (vid : String),
      (vid ∈ (ports.foldl (fun acc port =>
          match giGet gi port with
          | .special v vn => (dictInsert v (SymVal.special v vn) acc.1, acc.2)
          | .negated v vn => (acc.1, dictInsert v (SymVal.negated v vn) acc.2)
          | .const _ => acc) acc).1.map Prod.fst
        ↔ vid ∈ acc.1.map Prod.fst ∨ ∃ p ∈ ports, ∃ vn, giGet gi p = SymVal.special vid vn)
      ∧ (vid ∈ (ports.foldl (fun acc port =>
          match giGet gi port with
          | .special v vn => (dictInsert v (SymVal.special v vn) acc.1, acc.2)
          | .negated v vn => (acc.1, dictInsert v (SymVal.negated v vn) acc.2)
          | .const _ => acc) acc).2.map Prod.fst
        ↔ vid ∈ acc.2.map Prod.fst ∨ ∃ p ∈ ports, ∃ vn, giGet gi p = SymVal.negated vid vn)
  | [], gi, acc, vid => by simp
  | port :: rest, gi, acc, vid => by
    rw [List.foldl_cons,
      exists_mem_cons_sym port rest (fun p => ∃ vn, giGet gi p = SymVal.special vid vn),
      exists_mem_cons_sym port rest (fun p => ∃ vn, giGet gi p = SymVal.negated vid vn)]
    rcases hg : giGet gi port with v | ⟨sv, sn⟩ | ⟨nv, nn⟩
    · dsimp only
      have ih := collectPolarVals_keys rest gi acc vid
      rw [ih.1, ih.2]
      constructor
      · constructor
        · rintro (h1 | h2)
          · exact Or.inl h1
          · exact Or.inr (Or.inr h2)
        · rintro (h1 | (⟨vn, hv⟩ | h2))
          · exact Or.inl h1
          · cases hv
          · exact Or.inr h2
      · constructor
        · rintro (h1 | h2)
          · exact Or.inl h1
          · exact Or.inr (Or.inr h2)
        · rintro (h1 | (⟨vn, hv⟩ | h2))
          · exact Or.inl h1
          · cases hv
          · exact Or.inr h2
    · dsimp only
      have ih := collectPolarVals_keys rest gi
        (dictInsert sv (SymVal.special sv sn) acc.1, acc.2) vid
      rw [ih.1, ih.2]
      dsimp only
      rw [mem_keys_dictInsert]
      constructor
      · constructor
        · rintro ((rfl | h1) | h2)
          · exact Or.inr (Or.inl ⟨sn, rfl⟩)
          · exact Or.inl h1
          · exact Or.inr (Or.inr h2)
        · rintro (h1 | (⟨vn, hv⟩ | h2))
          · exact Or.inl (Or.inr h1)
          · injection hv with h3 h4
            exact Or.inl (Or.inl h3.symm)
          · exact Or.inr h2
      · constructor
        · rintro (h1 | h2)
          · exact Or.inl h1
          · exact Or.inr (Or.inr h2)
        · rintro (h1 | (⟨vn, hv⟩ | h2))
          · exact Or.inl h1
          · cases hv
          · exact Or.inr h2
    · dsimp only
      have ih := collectPolarVals_keys rest gi
        (acc.1, dictInsert nv (SymVal.negated nv nn) acc.2) vid
      rw [ih.1, ih.2]
      dsimp only
      rw [mem_keys_dictInsert]
      constructor
      · constructor
        · rintro (h1 | h2)
          · exact Or.inl h1
          · exact Or.inr (Or.inr h2)
        · rintro (h1 | (⟨vn, hv⟩ | h2))
          · exact Or.inl h1
          · cases hv
          · exact Or.inr h2
      · constructor
        · rintro ((rfl | h1) | h2)
          · exact Or.inr (Or.inl ⟨nn, rfl⟩)
          · exact Or.inl h1
          · exact Or.inr (Or.inr h2)
        · rintro (h1 | (⟨vn, hv⟩ | h2))
          · exact Or.inl (Or.inr h1)
          · injection hv with h3 h4
            exact Or.inl (Or.inl h3.symm)
          · exact Or.inr h2

theorem dictInsert_nil {α : Type} (k : String) (v : α) :
    dictInsert k v ([] : List (String × α)) = [(k, v)] := by simp [dictInsert]

theorem dictInsert_self {α : Type} (k : String) (v w : α) :
    dictInsert k v [(k, w)] = [(k, v)] := by simp [dictInsert]

theorem collectPolarVals_single_special :
    ∀ (ports : List String) (gi : List (String × SymVal)) (vid vn : String)
      (acc1 acc2 : List (String × SymVal)),
      (∀ port ∈ ports,
        giGet gi port = SymVal.const 1 ∨ giGet gi port = SymVal.special vid vn) →
      (acc1 = [] ∨ acc1 = [(vid, SymVal.special vid vn)]) →
      (ports.foldl (fun acc port =>
          match giGet gi port with
          | .special v vn => (dictInsert v (SymVal.special v vn) acc.1, acc.2)
          | .negated v vn => (acc.1, dictInsert v (SymVal.negated v vn) acc.2)
          | .const _ => acc) (acc1, acc2)).2 = acc2
      ∧ ((ports.foldl (fun acc port =>
          match giGet gi port with
          | .special v vn => (dictInsert v (SymVal.special v vn) acc.1, acc.2)
          | .negated v vn => (acc.1, dictInsert v (SymVal.negated v vn) acc.2)
          | .const _ => acc) (acc1, acc2)).1 = [] ∨
         (ports.foldl (fun acc port =>
          match giGet gi port with
          | .special v vn => (dictInsert v (SymVal.special v vn) acc.1, acc.2)
          | .negated v vn => (acc.1, dictInsert v (SymVal.negated v vn) acc.2)
          | .const _ => acc) (acc1, acc2)).1 = [(vid, SymVal.special vid vn)])
      ∧ ((acc1 = [(vid, SymVal.special vid vn)] ∨
          ∃ port ∈ ports, giGet gi port = SymVal.special vid vn) →
         (ports.foldl (fun acc port =>
          match giGet gi port with
          | .special v vn => (dictInsert v (SymVal.special v vn) acc.1, acc.2)
          | .negated v vn => (acc.1, dictInsert v (SymVal.negated v vn) acc.2)
          | .const _ => acc) (acc1, acc2)).1 = [(vid, SymVal.special vid vn)])
  | [], gi, vid, vn, acc1, acc2, hall, hacc => by
    refine ⟨rfl, hacc, ?_⟩
    rintro (h1 | ⟨p, hp, _⟩)
    · exact h1
    · simp at hp
  | port :: rest, gi, vid, vn, acc1, acc2, hall, hacc => by
    rw [List.foldl_cons]
    rcases hall port (List.mem_cons_self port rest) with hc | hs
    · rw [hc]
      dsimp only
      have ih := collectPolarVals_single_special rest gi vid vn acc1 acc2
        (fun p hp => hall p (List.mem_cons_of_mem port hp)) hacc
      refine ⟨ih.1, ih.2.1, ?_⟩
      rintro (h1 | ⟨p, hp, hps⟩)
      · exact ih.2.2 (Or.inl h1)
      · rcases List.mem_cons.mp hp with rfl | hm
        · rw [hc] at hps
          cases hps
        · exact ih.2.2 (Or.inr ⟨p, hm, hps⟩)
    · rw [hs]
      dsimp only
      have hins : dictInsert vid (SymVal.special vid vn) acc1
          = [(vid, SymVal.special vid vn)] := by
        rcases hacc with rfl | rfl
        · exact dictInsert_nil _ _
        · exact dictInsert_self _ _ _
      rw [hins]
      have ih := collectPolarVals_single_special rest gi vid vn
        [(vid, SymVal.special vid vn)] acc2
        (fun p hp => hall p (List.mem_cons_of_mem port hp)) (Or.inr rfl)
      exact ⟨ih.1, ih.2.1, fun _ => ih.2.2 (Or.inl rfl)⟩

theorem collectPolarVals_single_negated :
    ∀ (ports : List String) (gi : List (String × SymVal)) (vid vn : String)
      (acc1 acc2 : List (String × SymVal)),
      (∀ port ∈ ports,
        giGet gi port = SymVal.const 1 ∨ giGet gi port = SymVal.negated vid vn) →
      (acc2 = [] ∨ acc2 = [(vid, SymVal.negated vid vn)]) →
      (ports.foldl (fun acc port =>
          match giGet gi port with
          | .special v vn => (dictInsert v (SymVal.special v vn) acc.1, acc.2)
          | .negated v vn => (acc.1, dictInsert v (SymVal.negated v vn) acc.2)
          | .const _ => acc) (acc1, acc2)).1 = acc1
      ∧ ((ports.foldl (fun acc port =>
          match giGet gi port with
          | .special v vn => (dictInsert v (SymVal.special v vn) acc.1, acc.2)
          | .negated v vn => (acc.1, dictInsert v (SymVal.negated v vn) acc.2)
          | .const _ => acc) (acc1, acc2)).2 = [] ∨
         (ports.foldl (fun acc port =>
          match giGet gi port with
          | .special v vn => (dictInsert v (SymVal.special v vn) acc.1, acc.2)
          | .negated v vn => (acc.1, dictInsert v (SymVal.negated v vn) acc.2)
          | .const _ => acc) (acc1, acc2)).2 = [(vid, SymVal.negated vid vn)])
      ∧ ((acc2 = [(vid, SymVal.negated vid vn)] ∨
          ∃ port ∈ ports, giGet gi port = SymVal.negated vid vn) →
         (ports.foldl (fun acc port =>
          match giGet gi port with
          | .special v vn => (dictInsert v (SymVal.special v vn) acc.1, acc.2)
          | .negated v vn => (acc.1, dictInsert v (SymVal.negated v vn) acc.2)
          | .const _ => acc) (acc1, acc2)).2 = [(vid, SymVal.negated vid vn)])
  | [], gi, vid, vn, acc1, acc2, hall, hacc => by
    refine ⟨rfl, hacc, ?_⟩
    rintro (h1 | ⟨p, hp, _⟩)
    · exact h1
    · simp at hp
  | port :: rest, gi, vid, vn, acc1, acc2, hall, hacc => by
    rw [List.foldl_cons]
    rcases hall port (List.mem_cons_self port rest) with hc | hs
    · rw [hc]
      dsimp only
      have ih := collectPolarVals_single_negated rest gi vid vn acc1 acc2
        (fun p hp => hall p (List.mem_cons_of_mem port hp)) hacc
      refine ⟨ih.1, ih.2.1, ?_⟩
      rintro (h1 | ⟨p, hp, hps⟩)
      · exact ih.2.2 (Or.inl h1)
      · rcases List.mem_cons.mp hp with rfl | hm
        · rw [hc] at hps
          cases hps
        · exact ih.2.2 (Or.inr ⟨p, hm, hps⟩)
    · rw [hs]
      dsimp only
      have hins : dictInsert vid (SymVal.negated vid vn) acc2
          = [(vid, SymVal.negated vid vn)] := by
        rcases hacc with rfl | rfl
        · exact dictInsert_nil _ _
        · exact dictInsert_self _ _ _
      rw [hins]
      have ih := collectPolarVals_single_negated rest gi vid vn acc1
        [(vid, SymVal.negated vid vn)]
        (fun p hp => hall p (List.mem_cons_of_mem port hp)) (Or.inr rfl)
      exact ⟨ih.1, ih.2.1, fun _ => ih.2.2 (Or.inl rfl)⟩

theorem collectPolarVals_all_const :
    ∀ (ports : List String) (gi : List (String × SymVal))
      (acc : List (String × SymVal) × List (String × SymVal)),
      (∀ port ∈ ports, ∃ v, giGet gi port = SymVal.const v) →
      ports.foldl (fun acc port =>
          match giGet gi port with
          | .special v vn => (dictInsert v (SymVal.special v vn) acc.1, acc.2)
          | .negated v vn => (acc.1, dictInsert v (SymVal.negated v vn) acc.2)
          | .const _ => acc) acc = acc
  | [], gi, acc, hall => rfl
  | port :: rest, gi, acc, hall => by
    rw [List.foldl_cons]
    rcases hall port (List.mem_cons_self port rest) with ⟨v, hv⟩
    rw [hv]
    dsimp only
    exact collectPolarVals_all_const rest gi acc
      (fun p hp => hall p (List.mem_cons_of_mem port hp))

theorem anyConst0_false (ports : List String) (gi : List (String × SymVal))
    (h : ∀ port ∈ ports, giGet gi port ≠ SymVal.const 0) :
    (ports.any (fun port => giGet gi port == SymVal.const 0)) = false := by
  cases hany : ports.any (fun port => giGet gi port == SymVal.const 0)
  · rfl
  · rcases List.any_eq_true.mp hany with ⟨port, hp, hpf⟩
    exact absurd (eq_of_beq hpf) (h port hp)

theorem allReg1_true (ports : List String) (gi : List (String × SymVal))
    (h : ∀ port ∈ ports, isConstVal (giGet gi port) = true → giGet gi port = SymVal.const 1) :
    (ports.filter (fun port => (gi.lookup port).isSome && isConstVal (giGet gi port))).all
      (fun port => giGet gi port == SymVal.const 1) = true := by
  rw [List.all_eq_true]
  intro port hp
  rcases List.mem_filter.mp hp with ⟨hmem, hcond⟩
  rcases (Bool.and_eq_true _ _).mp hcond with ⟨_, hconst⟩
  rw [h port hmem hconst]
  rfl

theorem computeAND_eq (gate : LogicGate) (gi : List (String × SymVal))
    (hAND : gate.type = "AND") :
    computeSpecialGateOutput gate gi =
    (if gate.inputs.any (fun port => giGet gi port == SymVal.const 0) then SymVal.const 0
     else
       let pol := collectPolarVals gate gi
       if pol.1.any (fun sv => pol.2.any (fun nv => nv.1 = sv.1)) then SymVal.const 0
       else
         let allReg1 := (gate.inputs.filter (fun port =>
             (gi.lookup port).isSome && isConstVal (giGet gi port))).all
             (fun port => giGet gi port == SymVal.const 1)
         if allReg1 then
           if pol.1.length = 1 && pol.2.isEmpty then
             match pol.1 with | (_, v) :: _ => v | [] => SymVal.const 0
           else if pol.2.length = 1 && pol.1.isEmpty then
             match pol.2 with | (_, v) :: _ => v | [] => SymVal.const 0
           else if pol.1.isEmpty && pol.2.isEmpty then SymVal.const 1
           else SymVal.const 0
         else SymVal.const 0) := by
  unfold computeSpecialGateOutput
  rw [hAND]
  rw [if_neg (by decide : ¬("AND" = "NOT")), if_pos rfl]

theorem gi_entry_val {gi : List (String × SymVal)} (hnd : (gi.map Prod.fst).Nodup)
    {p : String} {v : SymVal} (h : (p, v) ∈ gi) : giGet gi p = v := by
  unfold giGet
  rw [lookup_of_mem_nodup hnd h]
  rfl

theorem and_const0_zero (gate : LogicGate) (gi : List (String × SymVal))
    (hAND : gate.type = "AND")
    (hex : ∃ port ∈ gate.inputs, giGet gi port = SymVal.const 0) :
    computeSpecialGateOutput gate gi = SymVal.const 0 := by
  rw [computeAND_eq gate gi hAND]
  rcases hex with ⟨port, hp, hv⟩
  have hany : gate.inputs.any (fun port => giGet gi port == SymVal.const 0) = true :=
    List.any_eq_true.mpr ⟨port, hp, by rw [hv]; rfl⟩
  rw [hany]
  rfl


theorem and_flag_iff (gid : String) (gate : LogicGate) (gi : List (String × SymVal)) :
    (checkGateForHazard gid gate gi).isSome ↔
      2 ≤ gate.inputs.length ∧ ∃ vid, (∃ p vn, (p, SymVal.special vid vn) ∈ gi)
        ∧ (∃ q vn', (q, SymVal.negated vid vn') ∈ gi) := by
  unfold checkGateForHazard
  by_cases hlen : gate.inputs.length < 2
  · rw [if_pos hlen]
    constructor
    · intro h
      cases h
    · rintro ⟨h2, _⟩
      omega
  · rw [if_neg hlen]
    dsimp only
    rcases hf : (collectPolarPorts gi).1.find?
        (fun sv => (collectPolarPorts gi).2.any (fun nv => nv.1 = sv.1)) with _ | sv <;>
      rw [hf]
    · constructor
      · intro h
        dsimp only at h
        cases h
      · rintro ⟨h2, vid, ⟨p, vn, hsp⟩, ⟨q, vn', hng⟩⟩
        exfalso
        have hk1 : vid ∈ (collectPolarPorts gi).1.map Prod.fst :=
          ((collectPolarPorts_keys gi ([], []) vid).1).mpr (Or.inr ⟨p, vn, hsp⟩)
        have hk2 : vid ∈ (collectPolarPorts gi).2.map Prod.fst :=
          ((collectPolarPorts_keys gi ([], []) vid).2).mpr (Or.inr ⟨q, vn', hng⟩)
        rcases List.mem_map.mp hk1 with ⟨sv', hsv', hsv'1⟩
        rcases List.mem_map.mp hk2 with ⟨nv', hnv', hnv'1⟩
        have hpred := List.find?_eq_none.mp hf sv' hsv'
        apply hpred
        refine List.any_eq_true.mpr ⟨nv', hnv', ?_⟩
        exact decide_eq_true (by rw [hnv'1, hsv'1])
    · dsimp only
      have hsv := List.mem_of_find?_eq_some hf
      have hpred := List.find?_some hf
      rcases List.any_eq_true.mp hpred with ⟨nv, hnv, heq⟩
      have hnveq : nv.1 = sv.1 := of_decide_eq_true heq
      have hk1 : sv.1 ∈ (collectPolarPorts gi).1.map Prod.fst :=
        List.mem_map_of_mem Prod.fst hsv
      have hk2 : sv.1 ∈ (collectPolarPorts gi).2.map Prod.fst :=
        hnveq ▸ List.mem_map_of_mem Prod.fst hnv
      have hsp := ((collectPolarPorts_keys gi ([], []) sv.1).1).mp hk1
      have hng := ((collectPolarPorts_keys gi ([], []) sv.1).2).mp hk2
      rcases hsp with habs | hsp
      · simp at habs
      rcases hng with habs | hng
      · simp at habs
      constructor
      · intro _
        exact ⟨by omega, sv.1, hsp, hng⟩
      · intro _
        by_cases h1 : gate.type = "AND"
        · rw [if_pos h1]
          rfl
        · rw [if_neg h1]
          by_cases h2 : gate.type = "OR"
          · rw [if_pos h2]
            rfl
          · rw [if_neg h2]
            rfl

theorem and_flag_some (gid : String) (gate : LogicGate) (gi : List (String × SymVal))
    (hAND : gate.type = "AND") (hkeys : gi.map Prod.fst = gate.inputs)
    (hnd : gate.inputs.Nodup) :
    ∀ hc, checkGateForHazard gid gate gi = some hc →
      hc.htype = "静态冒险-0" ∧ computeSpecialGateOutput gate gi = SymVal.const 0 := by
  intro hc hsome
  have hiff := (and_flag_iff gid gate gi).mp (by rw [hsome]; rfl)
  rcases hiff with ⟨hlen2, vid, ⟨p, vn, hsp⟩, ⟨q, vn', hng⟩⟩
  have hgnd : (gi.map Prod.fst).Nodup := by rw [hkeys]; exact hnd
  have hp_mem : p ∈ gate.inputs := by rw [← hkeys]; exact List.mem_map_of_mem Prod.fst hsp
  have hq_mem : q ∈ gate.inputs := by rw [← hkeys]; exact List.mem_map_of_mem Prod.fst hng
  have hpv : giGet gi p = SymVal.special vid vn := gi_entry_val hgnd hsp
  have hqv : giGet gi q = SymVal.negated vid vn' := gi_entry_val hgnd hng
  constructor
  · unfold checkGateForHazard at hsome
    rw [if_neg (by omega)] at hsome
    dsimp only at hsome
    rcases hf : (collectPolarPorts gi).1.find?
        (fun sv => (collectPolarPorts gi).2.any (fun nv => nv.1 = sv.1)) with _ | sv <;>
      rw [hf] at hsome
    · cases hsome
    · dsimp only at hsome
      rw [hAND, if_pos rfl] at hsome
      injection hsome with h2
      rw [← h2]
  · by_cases hc0 : ∃ port ∈ gate.inputs, giGet gi port = SymVal.const 0
    · exact and_const0_zero gate gi hAND hc0
    · rw [computeAND_eq gate gi hAND]
      have hany : gate.inputs.any (fun port => giGet gi port == SymVal.const 0) = false := by
        apply anyConst0_false
        intro port hp hcontra
        exact hc0 ⟨port, hp, hcontra⟩
      rw [hany, if_neg Bool.false_ne_true]
      dsimp only
      have hk1 : vid ∈ (collectPolarVals gate gi).1.map Prod.fst :=
        ((collectPolarVals_keys gate.inputs gi ([], []) vid).1).mpr
          (Or.inr ⟨p, hp_mem, vn, hpv⟩)
      have hk2 : vid ∈ (collectPolarVals gate gi).2.map Prod.fst :=
        ((collectPolarVals_keys gate.inputs gi ([], []) vid).2).mpr
          (Or.inr ⟨q, hq_mem, vn', hqv⟩)
      rcases List.mem_map.mp hk1 with ⟨sv', hsv', hsv'1⟩
      rcases List.mem_map.mp hk2 with ⟨nv', hnv', hnv'1⟩
      have hcross : (collectPolarVals gate gi).1.any
          (fun sv => (collectPolarVals gate gi).2.any (fun nv => nv.1 = sv.1)) = true := by
        refine List.any_eq_true.mpr ⟨sv', hsv', ?_⟩
        refine List.any_eq_true.mpr ⟨nv', hnv', ?_⟩
        exact decide_eq_true (by rw [hnv'1, hsv'1])
      rw [hcross]
      rfl

theorem giGet_special_mem {gi : List (String × SymVal)} {p vid vn : String}
    (h : giGet gi p = SymVal.special vid vn) : (p, SymVal.special vid vn) ∈ gi := by
  unfold giGet at h
  rcases hl : gi.lookup p with _ | w <;> rw [hl] at h
  · cases h
  · dsimp only [Option.getD] at h
    rw [h] at hl
    exact lookup_mem hl

theorem giGet_negated_mem {gi : List (String × SymVal)} {p vid vn : String}
    (h : giGet gi p = SymVal.negated vid vn) : (p, SymVal.negated vid vn) ∈ gi := by
  unfold giGet at h
  rcases hl : gi.lookup p with _ | w <;> rw [hl] at h
  · cases h
  · dsimp only [Option.getD] at h
    rw [h] at hl
    exact lookup_mem hl

theorem and_propagate (gate : LogicGate) (gi : List (String × SymVal))
    (hAND : gate.type = "AND") (vid vn : String) (v : SymVal)
    (hv : v = SymVal.special vid vn ∨ v = SymVal.negated vid vn)
    (hall : ∀ port ∈ gate.inputs, giGet gi port = SymVal.const 1 ∨ giGet gi port = v)
    (hsome : ∃ port ∈ gate.inputs, giGet gi port = v) :
    computeSpecialGateOutput gate gi = v := by
  rw [computeAND_eq gate gi hAND]
  have hany : gate.inputs.any (fun port => giGet gi port == SymVal.const 0) = false := by
    apply anyConst0_false
    intro port hp hcontra
    rcases hall port hp with h1 | h1 <;> rw [hcontra] at h1
    · cases h1
    · rcases hv with rfl | rfl <;> cases h1
  rw [hany, if_neg Bool.false_ne_true]
  dsimp only
  have hreg : (gate.inputs.filter (fun port =>
      (gi.lookup port).isSome && isConstVal (giGet gi port))).all
      (fun port => giGet gi port == SymVal.const 1) = true := by
    apply allReg1_true
    intro port hp hconst
    rcases hall port hp with h1 | h1
    · exact h1
    · exfalso
      rw [h1] at hconst
      rcases hv with rfl | rfl <;> cases hconst
  rcases hv with rfl | rfl
  · have hsp := collectPolarVals_single_special gate.inputs gi vid vn [] [] hall (Or.inl rfl)
    have h1 : (collectPolarVals gate gi).1 = [(vid, SymVal.special vid vn)] :=
      hsp.2.2 (Or.inr hsome)
    have h2 : (collectPolarVals gate gi).2 = ([] : List (String × SymVal)) := hsp.1
    rw [h1, h2]
    have hcr : ([(vid, SymVal.special vid vn)].any
        (fun sv => ([] : List (String × SymVal)).any (fun nv => nv.1 = sv.1))) = false := rfl
    rw [hcr, if_neg Bool.false_ne_true, hreg, if_pos rfl]
    rfl
  · have hsp := collectPolarVals_single_negated gate.inputs gi vid vn [] [] hall (Or.inl rfl)
    have h1 : (collectPolarVals gate gi).1 = ([] : List (String × SymVal)) := hsp.1
    have h2 : (collectPolarVals gate gi).2 = [(vid, SymVal.negated vid vn)] :=
      hsp.2.2 (Or.inr hsome)
    rw [h1, h2]
    have hcr : (([] : List (String × SymVal)).any
        (fun sv => [(vid, SymVal.negated vid vn)].any (fun nv => nv.1 = sv.1))) = false := rfl
    rw [hcr, if_neg Bool.false_ne_true, hreg, if_pos rfl]
    rfl

theorem and_all_ones (gate : LogicGate) (gi : List (String × SymVal))
    (hAND : gate.type = "AND")
    (hall : ∀ port ∈ gate.inputs, giGet gi port = SymVal.const 1) :
    computeSpecialGateOutput gate gi = SymVal.const 1 := by
  rw [computeAND_eq gate gi hAND]
  have hany : gate.inputs.any (fun port => giGet gi port == SymVal.const 0) = false := by
    apply anyConst0_false
    intro port hp hcontra
    rw [hall port hp] at hcontra
    cases hcontra
  rw [hany, if_neg Bool.false_ne_true]
  dsimp only
  have hpol : collectPolarVals gate gi = (([], []) :
      List (String × SymVal) × List (String × SymVal)) :=
    collectPolarVals_all_const gate.inputs gi ([], []) (fun p hp => ⟨1, hall p hp⟩)
  have hcr : ((collectPolarVals gate gi).1.any
      (fun sv => (collectPolarVals gate gi).2.any (fun nv => nv.1 = sv.1))) = false := by
    rw [hpol]
    rfl
  rw [hcr, if_neg Bool.false_ne_true]
  have hreg := allReg1_true gate.inputs gi (fun p hp _ => hall p hp)
  rw [hreg, if_pos rfl, hpol]
  rfl

theorem and_two_tokens_zero (gate : LogicGate) (gi : List (String × SymVal))
    (hAND : gate.type = "AND")
    (p1 p2 vid1 vid2 vn1 vn2 : String) (b1 b2 : Bool)
    (hp1 : p1 ∈ gate.inputs) (hp2 : p2 ∈ gate.inputs)
    (hw1 : giGet gi p1 = (if b1 then SymVal.special vid1 vn1 else SymVal.negated vid1 vn1))
    (hw2 : giGet gi p2 = (if b2 then SymVal.special vid2 vn2 else SymVal.negated vid2 vn2))
    (hdiff : vid1 ≠ vid2 ∨ b1 ≠ b2)
    (hnc : ∀ vid vn vn' p q,
      (p, SymVal.special vid vn) ∈ gi → (q, SymVal.negated vid vn') ∈ gi → False)
    (hconst : ∀ port ∈ gate.inputs,
      isConstVal (giGet gi port) = true → giGet gi port = SymVal.const 1) :
    computeSpecialGateOutput gate gi = SymVal.const 0 := by
  rw [computeAND_eq gate gi hAND]
  have hany : gate.inputs.any (fun port => giGet gi port == SymVal.const 0) = false := by
    apply anyConst0_false
    intro port hp
    rcases hval : giGet gi port with c | ⟨a, b⟩ | ⟨a, b⟩
    · have hone := hconst port hp (by rw [hval]; rfl)
      rw [hval] at hone
      injection hone with hc1
      rw [hc1]
      intro hx
      injection hx with hx2
      exact absurd hx2 (by decide)
    · intro hx
      cases hx
    · intro hx
      cases hx
  rw [hany, if_neg Bool.false_ne_true]
  dsimp only
  have hcr : ((collectPolarVals gate gi).1.any
      (fun sv => (collectPolarVals gate gi).2.any (fun nv => nv.1 = sv.1))) = false := by
    cases hca : (collectPolarVals gate gi).1.any
        (fun sv => (collectPolarVals gate gi).2.any (fun nv => nv.1 = sv.1))
    · rfl
    · exfalso
      rcases List.any_eq_true.mp hca with ⟨sv, hsv, hin⟩
      rcases List.any_eq_true.mp hin with ⟨nv, hnv, heqd⟩
      have heq : nv.1 = sv.1 := of_decide_eq_true heqd
      have hs := ((collectPolarVals_keys gate.inputs gi ([], []) sv.1).1).mp
        (List.mem_map_of_mem Prod.fst hsv)
      have hn := ((collectPolarVals_keys gate.inputs gi ([], []) sv.1).2).mp
        (heq ▸ List.mem_map_of_mem Prod.fst hnv)
      rcases hs with habs | ⟨ps, hps, vns, hvs⟩
      · simp at habs
      rcases hn with habs | ⟨pn, hpn, vnn, hvn⟩
      · simp at habs
      exact hnc sv.1 vns vnn ps pn (giGet_special_mem hvs) (giGet_negated_mem hvn)
  rw [hcr, if_neg Bool.false_ne_true]
  have hreg := allReg1_true gate.inputs gi hconst
  rw [hreg, if_pos rfl]
  have hfacts : 2 ≤ (collectPolarVals gate gi).1.length
      ∨ 2 ≤ (collectPolarVals gate gi).2.length
      ∨ ((collectPolarVals gate gi).1 ≠ [] ∧ (collectPolarVals gate gi).2 ≠ []) := by
    cases b1 <;> cases b2
    · have hvids : vid1 ≠ vid2 := by
        rcases hdiff with h | h
        · exact h
        · exact absurd rfl h
      have hm1 : vid1 ∈ (collectPolarVals gate gi).2.map Prod.fst :=
        ((collectPolarVals_keys gate.inputs gi ([], []) vid1).2).mpr
          (Or.inr ⟨p1, hp1, vn1, hw1⟩)
      have hm2 : vid2 ∈ (collectPolarVals gate gi).2.map Prod.fst :=
        ((collectPolarVals_keys gate.inputs gi ([], []) vid2).2).mpr
          (Or.inr ⟨p2, hp2, vn2, hw2⟩)
      refine Or.inr (Or.inl ?_)
      have := two_mem_two_le_length _ vid1 vid2 hm1 hm2 hvids
      rw [List.length_map] at this
      exact this
    · have hm1 : vid1 ∈ (collectPolarVals gate gi).2.map Prod.fst :=
        ((collectPolarVals_keys gate.inputs gi ([], []) vid1).2).mpr
          (Or.inr ⟨p1, hp1, vn1, hw1⟩)
      have hm2 : vid2 ∈ (collectPolarVals gate gi).1.map Prod.fst :=
        ((collectPolarVals_keys gate.inputs gi ([], []) vid2).1).mpr
          (Or.inr ⟨p2, hp2, vn2, hw2⟩)
      refine Or.inr (Or.inr ⟨?_, ?_⟩)
      · intro hnil
        rw [hnil] at hm2
        simp at hm2
      · intro hnil
        rw [hnil] at hm1
        simp at hm1
    · have hm1 : vid1 ∈ (collectPolarVals gate gi).1.map Prod.fst :=
        ((collectPolarVals_keys gate.inputs gi ([], []) vid1).1).mpr
          (Or.inr ⟨p1, hp1, vn1, hw1⟩)
      have hm2 : vid2 ∈ (collectPolarVals gate gi).2.map Prod.fst :=
        ((collectPolarVals_keys gate.inputs gi ([], []) vid2).2).mpr
          (Or.inr ⟨p2, hp2, vn2, hw2⟩)
      refine Or.inr (Or.inr ⟨?_, ?_⟩)
      · intro hnil
        rw [hnil] at hm1
        simp at hm1
      · intro hnil
        rw [hnil] at hm2
        simp at hm2
    · have hvids : vid1 ≠ vid2 := by
        rcases hdiff with h | h
        · exact h
        · exact absurd rfl h
      have hm1 : vid1 ∈ (collectPolarVals gate gi).1.map Prod.fst :=
        ((collectPolarVals_keys gate.inputs gi ([], []) vid1).1).mpr
          (Or.inr ⟨p1, hp1, vn1, hw1⟩)
      have hm2 : vid2 ∈ (collectPolarVals gate gi).1.map Prod.fst :=
        ((collectPolarVals_keys gate.inputs gi ([], []) vid2).1).mpr
          (Or.inr ⟨p2, hp2, vn2, hw2⟩)
      refine Or.inl ?_
      have := two_mem_two_le_length _ vid1 vid2 hm1 hm2 hvids
      rw [List.length_map] at this
      exact this
  have hc1 : ¬(((collectPolarVals gate gi).1.length = 1
      && (collectPolarVals gate gi).2.isEmpty) = true) := by
    rw [Bool.and_eq_true, decide_eq_true_eq, List.isEmpty_iff]
    rintro ⟨h1, h2⟩
    rcases hfacts with hf | hf | ⟨hf1, hf2⟩
    · omega
    · rw [h2] at hf
      simp at hf
    · exact hf2 h2
  rw [if_neg hc1]
  have hc2 : ¬(((collectPolarVals gate gi).2.length = 1
      && (collectPolarVals gate gi).1.isEmpty) = true) := by
    rw [Bool.and_eq_true, decide_eq_true_eq, List.isEmpty_iff]
    rintro ⟨h1, h2⟩
    rcases hfacts with hf | hf | ⟨hf1, hf2⟩
    · rw [h2] at hf
      simp at hf
    · omega
    · exact hf1 h2
  rw [if_neg hc2]
  have hc3 : ¬(((collectPolarVals gate gi).1.isEmpty
      && (collectPolarVals gate gi).2.isEmpty) = true) := by
    rw [Bool.and_eq_true, List.isEmpty_iff, List.isEmpty_iff]
    rintro ⟨h1, h2⟩
    rcases hfacts with hf | hf | ⟨hf1, hf2⟩
    · rw [h1] at hf
      simp at hf
    · rw [h2] at hf
      simp at hf
    · exact hf1 h1
  rw [if_neg hc3]

/-- Claim C4: for an AND gate and any total valuation of its (distinct) input
ports by constants, literals (`SpecialVariable`) and negated literals
(`NegatedVariable`): any constant-0 input forces output `Constant 0`; the gate
is flagged (as a 静态冒险-0 site) exactly when it has at least two input ports
and some variable occurs both as a literal and as a negated literal among the
collected inputs, and a flagged gate's output is `Constant 0`; if exactly one
symbolic token is present (all its occurrences being that token) and every
constant input is 1, the token is propagated unchanged; if there is no
symbolic token and all inputs are 1 the output is `Constant 1`; and with two
distinct symbolic tokens (different variable or different polarity), no
complementary pair and all constant inputs 1, the output is `Constant 0`. -/
theorem C4_and_gate_symbolic_rules :
    ∀ (gid : String) (gate : LogicGate) (gi : List (String × SymVal)),
      gate.type = "AND" →
      gi.map Prod.fst = gate.inputs →
      gate.inputs.Nodup →
      ((∃ port ∈ gate.inputs, giGet gi port = SymVal.const 0) →
        computeSpecialGateOutput gate gi = SymVal.const 0)
      ∧ ((checkGateForHazard gid gate gi).isSome ↔
          2 ≤ gate.inputs.length ∧ ∃ vid, (∃ p vn, (p, SymVal.special vid vn) ∈ gi)
            ∧ (∃ q vn', (q, SymVal.negated vid vn') ∈ gi))
      ∧ (∀ hc, checkGateForHazard gid gate gi = some hc →
          hc.htype = "静态冒险-0" ∧ computeSpecialGateOutput gate gi = SymVal.const 0)
      ∧ (∀ vid vn v, (v = SymVal.special vid vn ∨ v = SymVal.negated vid vn) →
          (∀ port ∈ gate.inputs, giGet gi port = SymVal.const 1 ∨ giGet gi port = v) →
          (∃ port ∈ gate.inputs, giGet gi port = v) →
          computeSpecialGateOutput gate gi = v)
      ∧ ((∀ port ∈ gate.inputs, giGet gi port = SymVal.const 1) →
          computeSpecialGateOutput gate gi = SymVal.const 1)
      ∧ (∀ p1 p2 vid1 vid2 vn1 vn2 (b1 b2 : Bool),
          p1 ∈ gate.inputs → p2 ∈ gate.inputs →
          giGet gi p1 = (if b1 then SymVal.special vid1 vn1 else SymVal.negated vid1 vn1) →
          giGet gi p2 = (if b2 then SymVal.special vid2 vn2 else SymVal.negated vid2 vn2) →
          (vid1 ≠ vid2 ∨ b1 ≠ b2) →
          (∀ vid vn vn' p q,
            (p, SymVal.special vid vn) ∈ gi → (q, SymVal.negated vid vn') ∈ gi → False) →
          (∀ port ∈ gate.inputs,
            isConstVal (giGet gi port) = true → giGet gi port = SymVal.const 1) →
          computeSpecialGateOutput gate gi = SymVal.const 0) := by
  intro gid gate gi hAND hkeys hnd
  exact ⟨and_const0_zero gate gi hAND,
    and_flag_iff gid gate gi,
    and_flag_some gid gate gi hAND hkeys hnd,
    fun vid vn v hv hall hsome => and_propagate gate gi hAND vid vn v hv hall hsome,
    and_all_ones gate gi hAND,
    fun p1 p2 vid1 vid2 vn1 vn2 b1 b2 hp1 hp2 hw1 hw2 hdiff hnc hconst =>
      and_two_tokens_zero gate gi hAND p1 p2 vid1 vid2 vn1 vn2 b1 b2
        hp1 hp2 hw1 hw2 hdiff hnc hconst⟩

/-- C4's demonstration gate: a 2-input AND gate. -/
def c4gate : LogicGate := ⟨"g1", "AND", 2, ["pa", "pb"], "g1"⟩

/-- C4's demonstration valuation: the two ports carry a variable and its
negation. -/
def c4gi : List (String × SymVal) :=
  [("pa", SymVal.special "a" "A"), ("pb", SymVal.negated "a" "A")]

/-- Witness for C4 at a concrete AND gate receiving `a` and `NOT a`. -/
theorem C4_and_gate_symbolic_rules_witness :
    (checkGateForHazard "g1" c4gate c4gi).isSome
    ∧ computeSpecialGateOutput c4gate c4gi = SymVal.const 0 := by
  have h := C4_and_gate_symbolic_rules "g1" c4gate c4gi rfl rfl (by decide)
  have hisSome : (checkGateForHazard "g1" c4gate c4gi).isSome :=
    (h.2.1).mpr ⟨by decide, "a", ⟨"pa", "A", by decide⟩, ⟨"pb", "A", by decide⟩⟩
  rcases Option.isSome_iff_exists.mp hisSome with ⟨hc, hck⟩
  exact ⟨hisSome, (h.2.2.1 hc hck).2⟩
